import Mathlib

/-!
Verification of the buddy allocator in this repository.

The development shallowly embeds the Rust sources:
  - src/src/protected_allocator/math/math64.rs  (bit math, 64-bit build)
  - src/src/protected_allocator.rs              (tree engine)
  - src/src/inner_allocator.rs                  (engine variant with a separate
                                                 metadata slice and lazy init)
Machine words (usize, 64-bit target) are modelled as Nat with explicit
wrap-around (mod 2 ^ 64) where the Rust code can overflow; bytes of the
metadata tree are Nat values < 256; slices of bytes become functions
Nat -> Nat; fallible operations return Except.
-/

namespace BuddyAlloc

/-- usize::MAX on the 64-bit target. -/
def wordMax : Nat := 2 ^ 64 - 1

/-- MIN_CELL_LEN from src/src/protected_allocator.rs. -/
def MIN_CELL_LEN : Nat := 8

/-- MAX_SUPPORTED_ALIGN from src/src/protected_allocator.rs. -/
def MAX_SUPPORTED_ALIGN : Nat := 4096

/-- MIN_BUDDY_NB from src/src/protected_allocator.rs. -/
def MIN_BUDDY_NB : Nat := 4

/-- round_up_2 from src/src/protected_allocator/math/math64.rs: the canonical
bit-smear next-power-of-two.  The initial decrement and the final increment
wrap around like the Rust usize arithmetic does in release mode. -/
def round_up_2 (v : Nat) : Nat :=
  let v0 := (v + (2 ^ 64 - 1)) % 2 ^ 64
  let v1 := v0 ||| (v0 >>> 1)
  let v2 := v1 ||| (v1 >>> 2)
  let v3 := v2 ||| (v2 >>> 4)
  let v4 := v3 ||| (v3 >>> 8)
  let v5 := v4 ||| (v4 >>> 16)
  let v6 := v5 ||| (v5 >>> 32)
  (v6 + 1) % 2 ^ 64

/-- IDX_ARRAY from src/src/protected_allocator/math/math64.rs. -/
def IDX_ARRAY : List Nat := [
  0, 1, 2, 53, 3, 7, 54, 27, 4, 38, 41, 8, 34, 55, 48, 28, 62, 5, 39, 46, 44, 42, 22, 9, 24, 35,
  59, 56, 49, 18, 29, 11, 63, 52, 6, 26, 37, 40, 33, 47, 61, 45, 43, 21, 23, 58, 17, 10, 51, 25,
  36, 32, 60, 20, 57, 16, 50, 31, 19, 15, 30, 14, 13, 12]

/-- trailing_zero_right from src/src/protected_allocator/math/math64.rs: the
de-Bruijn multiply-and-lookup.  On a usize v the Rust code computes
(v & (!v + 1)).overflowing_mul(0x22fdd63cc95386d).0 >> 58 and indexes
IDX_ARRAY with it; ! is bitwise complement, so for v < 2 ^ 64 the operand
!v is 2 ^ 64 - 1 - v and the wrapping +1 and * are mod 2 ^ 64. -/
def trailing_zero_right (v : Nat) : Nat :=
  IDX_ARRAY.getD
    (((v &&& ((2 ^ 64 - 1 - v + 1) % 2 ^ 64)) * 0x22fdd63cc95386d % 2 ^ 64) >>> 58) 0

/-- BuddyError from src/src/protected_allocator.rs. -/
inductive BuddyError where
  | CannotFit
  | TooBigAlignment
  | TooBigSize
  | DoubleFreeOrCorruption
  | NoMoreSpace
deriving DecidableEq, Repr

/-- TryFrom Layout for BuddySize, src/src/protected_allocator.rs lines 239-252.
The max! macro (its macros.rs is absent from src/; its two-or-more argument
form folds the binary maximum, as the max! in src/src/buddy.rs does) gives
s = max(size, align, M).  Layout is passed as the pair (size, align). -/
def buddySizeOf (M size align : Nat) : Except BuddyError Nat :=
  let s := max size (max align M)
  if s > wordMax / MIN_BUDDY_NB + 1 then .error .TooBigSize
  else if align > MAX_SUPPORTED_ALIGN then .error .TooBigAlignment
  else .ok (round_up_2 s)

/-- TryFrom (BuddySize, BuddySize) for Order, src/src/protected_allocator.rs
lines 207-237 (64-bit branch).  The final cast to u8 wraps mod 256. -/
def orderOf (buddy arena : Nat) : Except BuddyError Nat :=
  let buddy_pow := trailing_zero_right buddy
  let space_pow := if arena = wordMax then 64 else trailing_zero_right arena
  if buddy_pow > space_pow then .error .CannotFit
  else .ok ((space_pow - buddy_pow) % 256)

/-- The order the source obtains by .ok().expect(..) on orderOf: the panic
branch (never reached in the verified uses) is collapsed to 0. -/
def orderOfD (buddy arena : Nat) : Nat :=
  match orderOf buddy arena with
  | .ok o => o
  | .error _ => 0

/-! ### The metadata tree engine

The metadata byte region becomes a total function Tree : Nat -> Nat; only the
indices below bytes_needed = 2 ^ (max_order + 1) are meaningful, index 0 is
never used by the heap walk (FIRST_INDEX = 1). -/

/-- A byte slice of metadata, as a total function from index to byte value. -/
abbrev Tree := Nat → Nat

/-- Writing one byte of the slice. -/
def upd (t : Tree) (i v : Nat) : Tree := fun j => if j = i then v else t j

/-- Fuel-indexed floor-log2; depthGo f n computes the depth of heap index n
for any fuel f at least n (depthOf_eq relates it to Nat.log2). -/
def depthGo : Nat → Nat → Nat
  | 0, _ => 0
  | f + 1, n => if 2 ≤ n then depthGo f (n / 2) + 1 else 0

/-- Depth of a heap index (root 1 has depth 0, children of i sit at depth
of i plus 1). -/
def depthOf (n : Nat) : Nat := depthGo n n
/-- Modelled from the spec: the min! macro lives in a macros.rs file that is
absent from src/ (only max! appears, in src/src/buddy.rs); the spec, section
4.4 step 5 and section 8 invariant 2, prescribes the binary minimum
min(left & 0x7f, right & 0x7f), which this definition implements in the
same if-comparison style as the max! macro. -/
def minB (a b : Nat) : Nat := if a > b then b else a
/-- Op from src/src/protected_allocator.rs. -/
inductive Op where
  | Allocate
  | Deallocate

/-- The descent loop of set_mark (src/src/protected_allocator.rs lines
114-127): steps counts the remaining iterations, so the loop body runs
order times starting from index 1. -/
def descendGo (t : Tree) (order : Nat) : Nat → Nat → Nat
  | 0, index => index
  | steps + 1, index =>
    descendGo t order steps (if t (2 * index) ≤ order then 2 * index else 2 * index + 1)

/-- Index reached by the descent of set_mark for a target order. -/
def descend (t : Tree) (order : Nat) : Nat := descendGo t order order 1

/-- modify_parents, src/src/protected_allocator.rs lines 158-182 (the
identical mark_parents of src/src/lib.rs lines 303-325 and modify_parents of
src/src/inner_allocator.rs lines 295-319 share this body).  The loop halves
index every iteration, so any fuel at least index is enough; the u8
decrement order.0 -= 1 and the coalescing order.0 - 1 wrap mod 256 as the
release-mode Rust arithmetic does. -/
def newIndiceOf (op : Op) (t : Tree) (parent order : Nat) : Nat :=
  match op with
  | .Allocate => minB (t (2 * parent) &&& 0x7f) (t (2 * parent + 1) &&& 0x7f)
  | .Deallocate =>
    if t (2 * parent) = order ∧ t (2 * parent + 1) = order then (order + 255) % 256
    else minB (t (2 * parent) &&& 0x7f) (t (2 * parent + 1) &&& 0x7f)

def mpAux (op : Op) : Nat → Tree → Nat → Nat → Tree
  | 0, t, _, _ => t
  | fuel + 1, t, index, order =>
    if 1 < index then
      let parent := index / 2
      let newIndice := newIndiceOf op t parent order
      if t parent ≠ newIndice then
        mpAux op fuel (upd t parent newIndice) parent ((order + 255) % 256)
      else t
    else t

/-- modify_parents with enough fuel for its while-loop. -/
def modifyParents (t : Tree) (index order : Nat) (op : Op) : Tree :=
  mpAux op index t index order

/-- The byte written by set_mark: 0x80 + max_order + 1, u8 arithmetic. -/
def occByte (mo : Nat) : Nat := (0x80 + mo + 1) % 256

/-- set_mark (src/src/protected_allocator.rs lines 109-146) after its order
conversion, parameterised by the already computed max order mo; returns the
updated tree and the marked index.  The pointer-offset computation of the
source stays in the callers (allocOp, innerAlloc) which receive the index,
exactly as set_mark of src/src/inner_allocator.rs returns the index. -/
def setMarkO (mo : Nat) (t : Tree) (order : Nat) : Except BuddyError (Tree × Nat) :=
  if order < t 1 then .error .NoMoreSpace
  else
    let index := descend t order
    .ok (modifyParents (upd t index (occByte mo)) index order .Allocate, index)

/-- set_mark at the layout level: converts the buddy size to an order with
the arena length, then runs the marking walk. -/
def setMark (M A : Nat) (t : Tree) (bs : Nat) : Except BuddyError (Tree × Nat) :=
  match orderOf bs A with
  | .error e => .error e
  | .ok order => setMarkO (orderOfD M A) t order

/-- unset_mark, src/src/protected_allocator.rs lines 147-157: refuse unless
the occupied bit is set, else restore the free order byte and repair the
ancestors. -/
def unsetMark (t : Tree) (order index : Nat) : Except BuddyError Tree :=
  if t index &&& 0x80 = 0 then .error .DoubleFreeOrCorruption
  else .ok (modifyParents (upd t index order) index order .Deallocate)

/-- alloc, src/src/protected_allocator.rs lines 89-92 together with the
offset computation of set_mark line 136: the returned pointer is
base + A / 2 ^ order * (index & (2 ^ order - 1)). -/
def allocOp (M A : Nat) (t : Tree) (size align : Nat) : Except BuddyError (Tree × Nat) :=
  match buddySizeOf M size align with
  | .error e => .error e
  | .ok bs =>
    match orderOf bs A with
    | .error e => .error e
    | .ok order =>
      match setMarkO (orderOfD M A) t order with
      | .error e => .error e
      | .ok r => .ok (r.1, A / (1 <<< order) * (r.2 &&& ((1 <<< order) - 1)))

/-- dealloc, src/src/protected_allocator.rs lines 94-108 (64-bit branch):
off is the pointer offset from the arena base; the u128 product
off * 2 ^ order cannot wrap, so plain Nat arithmetic is exact. -/
def deallocOp (M A : Nat) (t : Tree) (off size align : Nat) : Except BuddyError Tree :=
  match buddySizeOf M size align with
  | .error e => .error e
  | .ok bs =>
    match orderOf bs A with
    | .error e => .error e
    | .ok order => unsetMark t order ((1 <<< order) + off * (1 <<< order) / A)

/-- The tree after a dealloc call: on any error the source returns before
touching a single byte, so the tree is unchanged. -/
def deallocRun (M A : Nat) (t : Tree) (off size align : Nat) : Tree :=
  match deallocOp M A t off size align with
  | .ok t2 => t2
  | .error _ => t

/-- The metadata-writing loop shared by ProtectedAllocator::new
(src/src/protected_allocator.rs lines 66-75) and
AddressSpaceRef::write_metadata (src/src/inner_allocator.rs lines 184-193):
r counts the remaining iterations, co is current_order, mem is members. -/
def initLoop : Nat → Tree → Nat → Nat → Nat → Tree
  | 0, t, _, _, _ => t
  | r + 1, t, co, mem, idx =>
    if mem - 1 = 0 then initLoop r (upd t idx co) (co + 1) (1 <<< (co + 1)) (idx + 1)
    else initLoop r (upd t idx co) co (mem - 1) (idx + 1)

/-- The freshly written metadata tree for max order mo: every index below
bytes_needed = 2 ^ mo * 2 carries its depth. -/
def initTree (mo : Nat) : Tree := initLoop ((1 <<< mo) * 2) (fun _ => 0) 0 2 0

/-- Mirror of the deallocation call of modify_parents that records, as a
Bool, that order is at least 1 every time the loop body executes (the two
u8 subtraction sites of the loop). -/
def noUnderflowAux : Nat → Tree → Nat → Nat → Bool
  | 0, _, _, _ => true
  | fuel + 1, t, index, order =>
    if 1 < index then
      decide (1 ≤ order) &&
        (let parent := index / 2
         let newIndice :=
           if t (2 * parent) = order ∧ t (2 * parent + 1) = order then order - 1
           else minB (t (2 * parent) &&& 0x7f) (t (2 * parent + 1) &&& 0x7f)
         if t parent ≠ newIndice then noUnderflowAux fuel (upd t parent newIndice) parent (order - 1)
         else true)
    else true

/-- order stays at least 1 throughout the deallocation ancestor loop. -/
def noUnderflow (t : Tree) (index order : Nat) : Bool := noUnderflowAux index t index order

/-- The inner allocator alloc, src/src/inner_allocator.rs lines 208-225:
after marking, the metadata length is subtracted from the chunk offset when
the metadata lives inside the arena (selfHosted; the source condition is
allocable_len != s.len()). -/
def innerAlloc (M A mlen : Nat) (selfHosted : Bool) (t : Tree) (size align : Nat) :
    Except BuddyError (Tree × Nat) :=
  match buddySizeOf M size align with
  | .error e => .error e
  | .ok bs =>
    match orderOf bs A with
    | .error e => .error e
    | .ok order =>
      match setMarkO (orderOfD M A) t order with
      | .error e => .error e
      | .ok r =>
        let off := A / (1 <<< order) * (r.2 &&& ((1 <<< order) - 1))
        .ok (r.1, if selfHosted then off - mlen else off)

/-- StaticAddressSpace::new, src/src/inner_allocator.rs lines 41-49: the
metadata array is zero initialised, then metadata[0] = 0x42. -/
def staticNewMetadata : Tree := upd (fun _ => 0) 0 0x42

/-- write_metadata, src/src/inner_allocator.rs lines 168-207: write the
fresh tree, bootstrap-allocate the metadata chunk when it lives inside the
arena, then stamp m[0] = 0xff. -/
def writeMetadata (M A : Nat) (selfHosted : Bool) (t : Tree) : Tree :=
  let mo := orderOfD M A
  let bytesNeeded := (1 <<< mo) * 2
  let t1 := initLoop bytesNeeded t 0 2 0
  let t2 :=
    if selfHosted then
      match setMarkO mo t1 (orderOfD (max bytesNeeded M) A) with
      | .ok r => r.1
      | .error _ => t1
    else t1
  upd t2 0 0xff

/-- check_metadata, src/src/inner_allocator.rs lines 160-167: a 0x42 at
metadata index 0 triggers the lazy write_metadata. -/
def checkMetadata (M A : Nat) (selfHosted : Bool) (t : Tree) : Tree :=
  if t 0 = 0x42 then writeMetadata M A selfHosted t else t

/-! ### The buddy invariant and reachable states -/

/-- The value the free-path invariant forces on an internal free node from
its two children. -/
def canon (t : Tree) (i : Nat) : Nat :=
  if t (2 * i) = depthOf i + 1 ∧ t (2 * i + 1) = depthOf i + 1 then depthOf i
  else min (t (2 * i) &&& 0x7f) (t (2 * i + 1) &&& 0x7f)

/-- The state invariant of the metadata tree with max order mo. -/
structure Inv (mo : Nat) (t : Tree) : Prop where
  bounds : ∀ i, 1 ≤ i → i < 2 ^ (mo + 1) →
    t i = occByte mo ∨ (depthOf i ≤ t i ∧ t i ≤ mo + 1)
  leaves : ∀ i, 2 ^ mo ≤ i → i < 2 ^ (mo + 1) → t i ≠ occByte mo → t i = mo
  canonical : ∀ i, 1 ≤ i → i < 2 ^ mo → t i ≠ occByte mo → t i = canon t i
  stale : ∀ i, 1 ≤ i → i < 2 ^ (mo + 1) → t i = occByte mo →
    ∀ j m, 1 ≤ m → j < 2 ^ (mo + 1) → j / 2 ^ m = i → t j = depthOf j

/-- States of the engine reachable from a base tree by well-behaved clients:
allocations of any representable order, deallocations only of still-live
allocations, at the index and depth the returned pointer encodes.  The list
collects the marked indices of the live allocations. -/
inductive Reach (mo : Nat) (t0 : Tree) : Tree → List Nat → Prop where
  | init : Reach mo t0 t0 []
  | alloc {t L r o} : Reach mo t0 t L → o ≤ mo → setMarkO mo t o = .ok r →
      Reach mo t0 r.1 (r.2 :: L)
  | dealloc {t L t2 j} : Reach mo t0 t L → j ∈ L →
      unsetMark t (depthOf j) j = .ok t2 → Reach mo t0 t2 (L.erase j)

/-- Total wrapper of allocOp used by concrete counterexamples: on error the
tree is unchanged and offset 0 returned. -/
def allocRun (M A : Nat) (t : Tree) (size align : Nat) : Tree × Nat :=
  match allocOp M A t size align with
  | .ok r => r
  | .error _ => (t, 0)

/-- Byte offset in the arena of the chunk owned by heap index j, as the
source computes it: A / 2 ^ depth * (j & (2 ^ depth - 1)). -/
def nodeOffset (A j : Nat) : Nat :=
  A / (1 <<< depthOf j) * (j &&& ((1 <<< depthOf j) - 1))

/-- Byte length of the chunk owned by heap index j. -/
def nodeLen (A j : Nat) : Nat := A / (1 <<< depthOf j)

/-- A concrete four-leaf metadata state (not reachable from a fresh tree):
the root byte 0 underestimates its children. -/
def exTreeC3 : Tree := fun i => [0, 0, 3, 3, 1, 1, 1, 1].getD i 0

/-- True exactly on .ok results. -/
def isOkE {α : Type} (e : Except BuddyError α) : Bool :=
  match e with
  | .ok _ => true
  | .error _ => false

/-- First example allocation on the fresh four-leaf tree (witness state). -/
def exReach1 : Tree × Nat :=
  match setMarkO 2 (initTree 2) 2 with
  | .ok r => r
  | .error _ => (initTree 2, 0)

/-- Second example allocation on top of exReach1 (witness state). -/
def exReach2 : Tree × Nat :=
  match setMarkO 2 exReach1.1 2 with
  | .ok r => r
  | .error _ => (exReach1.1, 0)

/-- Example alloc on the fresh tree at the layout level (witness state). -/
def exC3Alloc : Tree × Nat := allocRun 8 32 (initTree 2) 8 1

/-- Example dealloc of exC3Alloc (witness state). -/
def exC3Free : Tree := deallocRun 8 32 exC3Alloc.1 exC3Alloc.2 8 1

/-- Two heap indices, neither of which is an ancestor of (or equal to, the
case m = 0) the other: their memory chunks are disjoint. -/
def unrel (a b : Nat) : Prop :=
  (∀ m, a / 2 ^ m ≠ b) ∧ (∀ m, b / 2 ^ m ≠ a)

/-- The base metadata state of a self-hosted allocator over an arena of
2 ^ a bytes with minimal cell 2 ^ mm: write_metadata run on the pristine
static region (metadata carved from the front of the arena, so
allocable_len differs from s.len()). -/
def c4Base (mm a : Nat) : Tree := writeMetadata (2 ^ mm) (2 ^ a) true staticNewMetadata

/-- The metadata length the From impl carves from the front of the arena:
max(input.len() / M * 2, M), src/src/inner_allocator.rs line 64. -/
def mlenOf (mm a : Nat) : Nat := max (2 ^ a / 2 ^ mm * 2) (2 ^ mm)

/-- Example inner-allocator call on the self-hosted base state (witness
state): M = 8, arena 32, metadata length 8, one (8, 1) allocation. -/
def exC4 : Tree × Nat :=
  match innerAlloc 8 32 8 true (c4Base 3 5) 8 1 with
  | .ok r => r
  | .error _ => (c4Base 3 5, 0)

instance {ε α : Type} [DecidableEq ε] [DecidableEq α] : DecidableEq (Except ε α) :=
  fun a b =>
    match a, b with
    | .ok x, .ok y =>
      if h : x = y then .isTrue (by rw [h]) else .isFalse (fun hc => by cases hc; exact h rfl)
    | .error x, .error y =>
      if h : x = y then .isTrue (by rw [h]) else .isFalse (fun hc => by cases hc; exact h rfl)
    | .ok _, .error _ => .isFalse (fun hc => Except.noConfusion hc)
    | .error _, .ok _ => .isFalse (fun hc => Except.noConfusion hc)

/-! ### Proof layer -/

theorem idx_array_inverts : ∀ k < 64,
    IDX_ARRAY.getD ((2 ^ k * 0x22fdd63cc95386d % 2 ^ 64) >>> 58) 0 = k := by
  decide

theorem testBit_odd_succ (w j : Nat) : (2 * w + 1).testBit (j + 1) = w.testBit j := by
  rw [Nat.testBit_add_one]
  congr 1
  omega

theorem testBit_odd_zero (w : Nat) : (2 * w + 1).testBit 0 = true := by
  rw [Nat.testBit_zero]
  simp [Nat.mul_add_mod]

/-- v & (-v) isolates the lowest set bit: decomposed form, v = 2 ^ k * (2w+1). -/
theorem land_neg_eq (k w : Nat) (h : 2 ^ k * (2 * w + 1) < 2 ^ 64) :
    (2 ^ k * (2 * w + 1)) &&& (2 ^ 64 - 2 ^ k * (2 * w + 1)) = 2 ^ k := by
  set v := 2 ^ k * (2 * w + 1) with hv
  have hvpos : 0 < v := by positivity
  have hk64 : k < 64 := by
    have h2k : 2 ^ k ≤ v := Nat.le_mul_of_pos_right _ (by omega)
    have := lt_of_le_of_lt h2k h
    exact (Nat.pow_lt_pow_iff_right (by omega)).mp this
  have hsub : v - 1 = 2 ^ (k + 1) * w + (2 ^ k - 1) := by
    have h1 : 1 ≤ 2 ^ k := Nat.one_le_two_pow
    have : v = 2 ^ (k + 1) * w + 2 ^ k := by
      rw [hv, Nat.pow_succ]
      ring
    omega
  apply Nat.eq_of_testBit_eq
  intro i
  have hstep : 2 ^ 64 - v = 2 ^ 64 - ((v - 1) + 1) := by omega
  rw [Nat.testBit_and, hstep,
    Nat.testBit_two_pow_sub_succ (by omega), Nat.testBit_two_pow]
  have hmask : (2 : Nat) ^ k - 1 < 2 ^ (k + 1) := by
    have h1 : (1 : Nat) ≤ 2 ^ k := Nat.one_le_two_pow
    have h2 : (2 : Nat) ^ k < 2 ^ (k + 1) := Nat.pow_lt_pow_succ (by omega)
    omega
  rcases Nat.lt_trichotomy i k with hik | hik | hik
  · have hvb : v.testBit i = false := by
      rw [hv, Nat.testBit_mul_pow_two]
      simp [Nat.not_le_of_lt hik]
    have hne : k ≠ i := by omega
    rw [hvb]
    simp [hne]
  · subst hik
    have hvb : v.testBit i = true := by
      rw [hv, Nat.testBit_mul_pow_two]
      simp
      omega
    have hsb : (v - 1).testBit i = false := by
      rw [hsub, Nat.testBit_mul_pow_two_add _ hmask, if_pos (Nat.lt_succ_self i)]
      simp [Nat.testBit_two_pow_sub_one]
    rw [hvb, hsb]
    simp [hk64]
  · obtain ⟨j, hj⟩ : ∃ j, i - k = j + 1 := ⟨i - k - 1, by omega⟩
    have hvb : v.testBit i = w.testBit j := by
      rw [hv, Nat.testBit_mul_pow_two, hj, testBit_odd_succ]
      simp [Nat.le_of_lt hik]
    have hsb : (v - 1).testBit i = w.testBit j := by
      rw [hsub, Nat.testBit_mul_pow_two_add _ hmask, if_neg (by omega)]
      congr 1
      omega
    have hne : k ≠ i := by omega
    rw [hvb, hsb]
    cases hb : w.testBit j <;> simp [hne]

/-- trailing_zero_right on a decomposed nonzero word. -/
theorem tzr_eq (k w : Nat) (h : 2 ^ k * (2 * w + 1) < 2 ^ 64) :
    trailing_zero_right (2 ^ k * (2 * w + 1)) = k := by
  have hk64 : k < 64 := by
    have h2k : 2 ^ k ≤ 2 ^ k * (2 * w + 1) := Nat.le_mul_of_pos_right _ (by omega)
    have := lt_of_le_of_lt h2k h
    exact (Nat.pow_lt_pow_iff_right (by omega)).mp this
  have hvpos : 0 < 2 ^ k * (2 * w + 1) := by positivity
  have hneg : (2 ^ 64 - 1 - 2 ^ k * (2 * w + 1) + 1) % 2 ^ 64
      = 2 ^ 64 - 2 ^ k * (2 * w + 1) := by
    have heq : 2 ^ 64 - 1 - 2 ^ k * (2 * w + 1) + 1 = 2 ^ 64 - 2 ^ k * (2 * w + 1) := by omega
    rw [heq]
    exact Nat.mod_eq_of_lt (by omega)
  unfold trailing_zero_right
  rw [hneg, land_neg_eq k w h]
  exact idx_array_inverts k hk64

/-- trailing_zero_right counts the trailing zero bits of any nonzero word:
the result r satisfies 2 ^ r divides v, 2 ^ (r+1) does not, and r < 64. -/
theorem tzr_spec (v : Nat) (h0 : 0 < v) (h64 : v < 2 ^ 64) :
    2 ^ trailing_zero_right v ∣ v ∧ ¬ 2 ^ (trailing_zero_right v + 1) ∣ v ∧
      trailing_zero_right v < 64 := by
  obtain ⟨k, m, hm, hvm⟩ := Nat.exists_eq_two_pow_mul_odd (by omega : v ≠ 0)
  obtain ⟨w, hw⟩ := hm
  have hv : v = 2 ^ k * (2 * w + 1) := by rw [hvm, hw]
  subst hv
  rw [tzr_eq k w h64]
  refine ⟨Dvd.intro _ rfl, ?_, by
    have h2k : 2 ^ k ≤ 2 ^ k * (2 * w + 1) := Nat.le_mul_of_pos_right _ (by omega)
    have := lt_of_le_of_lt h2k h64
    exact (Nat.pow_lt_pow_iff_right (by omega)).mp this⟩
  rintro ⟨c, hc⟩
  have : 2 * w + 1 = 2 * c := by
    have hpk : 0 < 2 ^ k := Nat.pos_pow_of_pos k (by omega)
    have : 2 ^ k * (2 * w + 1) = 2 ^ k * (2 * c) := by
      rw [hc, Nat.pow_succ]
      ring
    exact Nat.eq_of_mul_eq_mul_left hpk this
  omega

/-- trailing_zero_right on an exact power of two. -/
theorem tzr_pow2 (k : Nat) (hk : k < 64) : trailing_zero_right (2 ^ k) = k := by
  have := tzr_eq k 0 (by
    simpa using Nat.pow_lt_pow_right (by omega : 1 < 2) hk)
  simpa using this

/-- One or-with-shift step doubles the window of bits collected by the smear. -/
theorem or_shift_window {w a : Nat} (n : Nat)
    (ha : ∀ p, a.testBit p = true ↔ ∃ i, i < n ∧ w.testBit (p + i) = true) :
    ∀ p, (a ||| a >>> n).testBit p = true ↔
      ∃ i, i < n + n ∧ w.testBit (p + i) = true := by
  intro p
  rw [Nat.testBit_or, Nat.testBit_shiftRight]
  constructor
  · intro hor
    rcases Bool.or_eq_true_iff.mp hor with hb | hb
    · obtain ⟨i, hi, hbit⟩ := (ha p).mp hb
      exact ⟨i, by omega, hbit⟩
    · obtain ⟨i, hi, hbit⟩ := (ha (n + p)).mp hb
      refine ⟨n + i, by omega, ?_⟩
      rw [show p + (n + i) = n + p + i by omega]
      exact hbit
  · rintro ⟨i, hi, hbit⟩
    rcases Nat.lt_or_ge i n with hlt | hge
    · exact Bool.or_eq_true_iff.mpr (Or.inl ((ha p).mpr ⟨i, hlt, hbit⟩))
    · refine Bool.or_eq_true_iff.mpr (Or.inr ((ha (n + p)).mpr ⟨i - n, by omega, ?_⟩))
      rw [show n + p + (i - n) = p + i by omega]
      exact hbit

theorem testBit_log2_self {w : Nat} (hw : w ≠ 0) : w.testBit w.log2 = true := by
  have h1 : 2 ^ w.log2 ≤ w := (Nat.le_log2 hw).mp le_rfl
  have h2 : w < 2 ^ (w.log2 + 1) := (Nat.log2_lt hw).mp (Nat.lt_succ_self _)
  have hpos : 0 < 2 ^ w.log2 := Nat.pos_pow_of_pos _ (by omega)
  have hdiv : w / 2 ^ w.log2 = 1 := by
    have hlo : 1 ≤ w / 2 ^ w.log2 := (Nat.one_le_div_iff hpos).mpr h1
    have hhi : w / 2 ^ w.log2 < 2 := by
      rw [Nat.div_lt_iff_lt_mul hpos]
      calc w < 2 ^ (w.log2 + 1) := h2
        _ = 2 * 2 ^ w.log2 := by rw [Nat.pow_succ]; ring
    omega
  rw [Nat.testBit_to_div_mod, hdiv]
  decide

/-- Any word whose bit p is set exactly when w has some bit in a width-64
window starting at p is the all-ones mask up to and including the top bit
of a nonzero w. -/
theorem smear_eq {w a : Nat} (hw0 : w ≠ 0) (hw63 : w < 2 ^ 63)
    (ha : ∀ p, a.testBit p = true ↔ ∃ i, i < 64 ∧ w.testBit (p + i) = true) :
    a = 2 ^ (w.log2 + 1) - 1 := by
  apply Nat.eq_of_testBit_eq
  intro p
  rw [Nat.testBit_two_pow_sub_one]
  by_cases hp : p ≤ w.log2
  · have hyes : ∃ i, i < 64 ∧ w.testBit (p + i) = true := by
      have hl : w.log2 < 63 := (Nat.log2_lt hw0).mpr hw63
      refine ⟨w.log2 - p, by omega, ?_⟩
      rw [show p + (w.log2 - p) = w.log2 by omega]
      exact testBit_log2_self hw0
    have hplt : p < w.log2 + 1 := by omega
    rw [(ha p).mpr hyes]
    simp [hplt]
  · have hno : ¬ ∃ i, i < 64 ∧ w.testBit (p + i) = true := by
      rintro ⟨i, hi, hb⟩
      have hge := Nat.testBit_implies_ge hb
      have hle : p + i ≤ w.log2 := (Nat.le_log2 hw0).mpr hge
      omega
    have hplt : ¬ p < w.log2 + 1 := by omega
    have hfb : a.testBit p = false := Bool.eq_false_iff.mpr (fun hb => hno ((ha p).mp hb))
    rw [hfb]
    simp [hplt]

/-- The or-smear of round_up_2 on v at least 2 produces the power of two
just above v - 1. -/
theorem round_up_2_pow (v : Nat) (h1 : 1 < v) (h2 : v ≤ 2 ^ 63) :
    round_up_2 v = 2 ^ (Nat.log2 (v - 1) + 1) := by
  set w := v - 1 with hwdef
  have hw0 : w ≠ 0 := by omega
  have hw63 : w < 2 ^ 63 := by omega
  have hbase : ∀ p, w.testBit p = true ↔ ∃ i, i < 1 ∧ w.testBit (p + i) = true := by
    intro p
    constructor
    · intro hb
      exact ⟨0, by omega, by simpa using hb⟩
    · rintro ⟨i, hi, hb⟩
      have hz : i = 0 := by omega
      subst hz
      simpa using hb
  have h2w := or_shift_window 1 hbase
  have h4w := or_shift_window 2 h2w
  have h8w := or_shift_window 4 h4w
  have h16w := or_shift_window 8 h8w
  have h32w := or_shift_window 16 h16w
  have h64w := or_shift_window 32 h32w
  have hsm := smear_eq hw0 hw63 (fun p => by rw [h64w p])
  have hmod0 : (v + (2 ^ 64 - 1)) % 2 ^ 64 = w := by
    have heq : v + (2 ^ 64 - 1) = w + 2 ^ 64 := by omega
    rw [heq, Nat.add_mod_right]
    exact Nat.mod_eq_of_lt (by omega)
  simp only [round_up_2, hmod0]
  rw [hsm]
  have hlt : 2 ^ (w.log2 + 1) ≤ 2 ^ 63 :=
    Nat.pow_le_pow_right (by omega) (by
      have : w.log2 < 63 := (Nat.log2_lt hw0).mpr hw63
      omega)
  have hpos : 0 < 2 ^ (w.log2 + 1) := Nat.pos_pow_of_pos _ (by omega)
  rw [Nat.sub_add_cancel hpos]
  exact Nat.mod_eq_of_lt (by
    calc 2 ^ (w.log2 + 1) ≤ 2 ^ 63 := hlt
      _ < 2 ^ 64 := by norm_num)

/-- round_up_2 is the smallest power of two at least its argument. -/
theorem round_up_2_spec (v : Nat) (h1 : 0 < v) (h2 : v ≤ 2 ^ 63) :
    v ≤ round_up_2 v ∧ (∃ k, round_up_2 v = 2 ^ k) ∧
      ∀ j, v ≤ 2 ^ j → round_up_2 v ≤ 2 ^ j := by
  rcases Nat.lt_or_ge 1 v with hv | hv
  · have hr := round_up_2_pow v hv h2
    have hw0 : v - 1 ≠ 0 := by omega
    constructor
    · rw [hr]
      have := (Nat.log2_lt hw0).mp (Nat.lt_succ_self (v - 1).log2)
      omega
    refine ⟨⟨_, hr⟩, ?_⟩
    intro j hj
    rw [hr]
    apply Nat.pow_le_pow_right (by omega)
    have : (v - 1).log2 < j := (Nat.log2_lt hw0).mpr (by omega)
    omega
  · have hv1 : v = 1 := by omega
    subst hv1
    refine ⟨by decide, ⟨0, by decide⟩, ?_⟩
    intro j hj
    have hone : round_up_2 1 = 1 := by decide
    rw [hone]
    exact Nat.one_le_two_pow

/-! ### Order conversion facts -/

theorem orderOf_pow2 (b a : Nat) (hb : b ≤ 63) (ha : a ≤ 63) :
    orderOf (2 ^ b) (2 ^ a) =
      if b > a then .error .CannotFit else .ok (a - b) := by
  have hne : (2 : Nat) ^ a ≠ wordMax := by
    have : (2 : Nat) ^ a ≤ 2 ^ 63 := Nat.pow_le_pow_right (by omega) ha
    unfold wordMax
    omega
  unfold orderOf
  rw [if_neg hne, tzr_pow2 b (by omega), tzr_pow2 a (by omega)]
  by_cases hba : b > a
  · rw [if_pos hba, if_pos hba]
  · rw [if_neg hba, if_neg hba, Nat.mod_eq_of_lt (by omega)]

theorem orderOf_wordMax (b : Nat) (hb : b ≤ 63) :
    orderOf (2 ^ b) wordMax = .ok (64 - b) := by
  unfold orderOf
  rw [if_pos rfl, tzr_pow2 b (by omega), if_neg (by omega), Nat.mod_eq_of_lt (by omega)]

theorem depthGo_eq (f : Nat) : ∀ n, n ≤ f → depthGo f n = Nat.log2 n := by
  induction f with
  | zero =>
    intro n hn
    have hn0 : n = 0 := by omega
    subst hn0
    rw [Nat.log2]
    simp [depthGo]
  | succ f ih =>
    intro n hn
    rw [Nat.log2]
    show (if 2 ≤ n then depthGo f (n / 2) + 1 else 0) = _
    by_cases h2 : 2 ≤ n
    · rw [if_pos h2, if_pos (by omega), ih (n / 2) (by omega)]
    · rw [if_neg h2, if_neg (by omega)]

theorem depthOf_eq (n : Nat) : depthOf n = Nat.log2 n := depthGo_eq n n le_rfl
theorem minB_eq_min (a b : Nat) : minB a b = min a b := by
  unfold minB
  split <;> omega

/-- buddySizeOf written out as nested ifs. -/
theorem buddySizeOf_eq (M size align : Nat) :
    buddySizeOf M size align =
      if max size (max align M) > wordMax / MIN_BUDDY_NB + 1 then .error .TooBigSize
      else if align > MAX_SUPPORTED_ALIGN then .error .TooBigAlignment
      else .ok (round_up_2 (max size (max align M))) := rfl

/-! ### Claim theorems: size and order conversion, bit math -/

/-- C5: with s = max(size, align, M), buddy_size_of fails with TooBigSize
exactly when s > WORD_MAX / MIN_BUDDY_NB + 1 (this check coming first),
fails with TooBigAlignment exactly when the size check passes and
align > MAX_SUPPORTED_ALIGN, and otherwise returns the smallest power of
two at least s. -/
theorem c5_buddy_size_of (M size align : Nat) (hM : MIN_CELL_LEN ≤ M) :
    (buddySizeOf M size align = .error .TooBigSize ↔
      max size (max align M) > wordMax / MIN_BUDDY_NB + 1)
  ∧ (buddySizeOf M size align = .error .TooBigAlignment ↔
      max size (max align M) ≤ wordMax / MIN_BUDDY_NB + 1 ∧ align > MAX_SUPPORTED_ALIGN)
  ∧ (max size (max align M) ≤ wordMax / MIN_BUDDY_NB + 1 → align ≤ MAX_SUPPORTED_ALIGN →
      ∃ bs, buddySizeOf M size align = .ok bs ∧ max size (max align M) ≤ bs ∧
        (∃ k, bs = 2 ^ k) ∧ ∀ j, max size (max align M) ≤ 2 ^ j → bs ≤ 2 ^ j) := by
  have hth : wordMax / MIN_BUDDY_NB + 1 = 2 ^ 62 := by norm_num [wordMax, MIN_BUDDY_NB]
  have hM8 : 8 ≤ M := hM
  have hMs : M ≤ max size (max align M) := le_trans (le_max_right align M) (le_max_right size _)
  rw [buddySizeOf_eq]
  by_cases h1 : max size (max align M) > wordMax / MIN_BUDDY_NB + 1
  · rw [if_pos h1]
    refine ⟨⟨fun _ => h1, fun _ => rfl⟩, ⟨fun he => ?_, fun h => by omega⟩, fun h => by omega⟩
    exact absurd he (by decide)
  · rw [if_neg h1]
    push_neg at h1
    by_cases h2 : align > MAX_SUPPORTED_ALIGN
    · rw [if_pos h2]
      refine ⟨⟨fun he => absurd he (by decide), fun h => by omega⟩,
        ⟨fun _ => ⟨h1, h2⟩, fun _ => rfl⟩, fun _ hal => by omega⟩
    · rw [if_neg h2]
      refine ⟨⟨fun he => ?_, fun h => by omega⟩, ⟨fun he => ?_, fun h => by
        exact absurd h.2 h2⟩, fun hle hal => ?_⟩
      · cases he
      · cases he
      · have hsp : 0 < max size (max align M) := by omega
        have hs63 : max size (max align M) ≤ 2 ^ 63 := by
          have h62 : (2 : Nat) ^ 62 ≤ 2 ^ 63 := by norm_num
          omega
        obtain ⟨hle2, hpow, hmin⟩ := round_up_2_spec _ hsp hs63
        exact ⟨_, rfl, hle2, hpow, hmin⟩

theorem c5_witness :
    MIN_CELL_LEN ≤ 8 ∧
    ((buddySizeOf 8 20 4 = .error .TooBigSize ↔
      max 20 (max 4 8) > wordMax / MIN_BUDDY_NB + 1)
  ∧ (buddySizeOf 8 20 4 = .error .TooBigAlignment ↔
      max 20 (max 4 8) ≤ wordMax / MIN_BUDDY_NB + 1 ∧ 4 > MAX_SUPPORTED_ALIGN)
  ∧ (max 20 (max 4 8) ≤ wordMax / MIN_BUDDY_NB + 1 → 4 ≤ MAX_SUPPORTED_ALIGN →
      ∃ bs, buddySizeOf 8 20 4 = .ok bs ∧ max 20 (max 4 8) ≤ bs ∧
        (∃ k, bs = 2 ^ k) ∧ ∀ j, max 20 (max 4 8) ≤ 2 ^ j → bs ≤ 2 ^ j)) :=
  ⟨by decide, c5_buddy_size_of 8 20 4 (by decide)⟩

/-- C6: order_of on powers of two fails with CannotFit exactly when
buddy_pow > arena_pow, otherwise returns arena_pow - buddy_pow, with the
sentinel arena_pow = 64 when the arena length is WORD_MAX. -/
theorem c6_order_of (b a : Nat) (hb : b ≤ 63) (ha : a ≤ 63) :
    (orderOf (2 ^ b) (2 ^ a) = .error .CannotFit ↔ b > a)
  ∧ (b ≤ a → orderOf (2 ^ b) (2 ^ a) = .ok (a - b))
  ∧ orderOf (2 ^ b) wordMax = .ok (64 - b) := by
  have h := orderOf_pow2 b a hb ha
  refine ⟨⟨fun he => ?_, fun hba => by rw [h, if_pos hba]⟩,
    fun hba => by rw [h, if_neg (by omega)], orderOf_wordMax b hb⟩
  by_contra hba
  rw [h, if_neg hba] at he
  cases he

theorem c6_witness :
    (3 : Nat) ≤ 63 ∧ (5 : Nat) ≤ 63 ∧
    ((orderOf (2 ^ 3) (2 ^ 5) = .error .CannotFit ↔ 3 > 5)
  ∧ ((3 : Nat) ≤ 5 → orderOf (2 ^ 3) (2 ^ 5) = .ok (5 - 3))
  ∧ orderOf (2 ^ 3) wordMax = .ok (64 - 3)) :=
  ⟨by decide, by decide, c6_order_of 3 5 (by decide) (by decide)⟩

/-- C7: on every nonzero 64-bit word the de-Bruijn multiply-and-lookup
returns exactly the number of trailing zero bits (2 ^ r divides v but
2 ^ (r + 1) does not), a value in [0, 63]. -/
theorem c7_trailing_zero_count (v : Nat) (h0 : 0 < v) (h64 : v < 2 ^ 64) :
    2 ^ trailing_zero_right v ∣ v ∧ ¬ 2 ^ (trailing_zero_right v + 1) ∣ v ∧
      trailing_zero_right v ≤ 64 - 1 := by
  obtain ⟨h1, h2, h3⟩ := tzr_spec v h0 h64
  exact ⟨h1, h2, by omega⟩

theorem c7_witness :
    (0 : Nat) < 40 ∧ (40 : Nat) < 2 ^ 64 ∧
    (2 ^ trailing_zero_right 40 ∣ 40 ∧ ¬ 2 ^ (trailing_zero_right 40 + 1) ∣ 40 ∧
      trailing_zero_right 40 ≤ 64 - 1) :=
  ⟨by decide, by decide, c7_trailing_zero_count 40 (by decide) (by decide)⟩

/-! ### Claim theorems: lazy metadata sentinel (C8) -/

/-- C8 as frozen places the 0x42 / 0xff sentinels at metadata index 1; the
code uses index 0: the pristine static region carries 0x42 at index 0 and
some order byte at index 1, and after materialisation index 0 carries 0xff
while index 1 holds the root order 0. -/
theorem c8_counterexample :
    staticNewMetadata 0 = 0x42 ∧ staticNewMetadata 1 ≠ 0x42
  ∧ checkMetadata 8 32 false staticNewMetadata 0 = 0xff
  ∧ checkMetadata 8 32 false staticNewMetadata 1 ≠ 0xff := by decide

/-- C8 amended: in the static (lazy) mode the sentinel 0x42 sits at index 0
of the metadata region, the lazy initialiser runs exactly when index 0 holds
0x42, and after materialisation index 0 carries 0xff. -/
theorem c8_sentinel (M A : Nat) (selfHosted : Bool) (t : Tree) :
    staticNewMetadata 0 = 0x42
  ∧ (t 0 = 0x42 → checkMetadata M A selfHosted t = writeMetadata M A selfHosted t)
  ∧ (t 0 ≠ 0x42 → checkMetadata M A selfHosted t = t)
  ∧ writeMetadata M A selfHosted t 0 = 0xff := by
  refine ⟨rfl, fun h => by rw [checkMetadata, if_pos h], fun h => by
    rw [checkMetadata, if_neg h], ?_⟩
  show upd _ 0 0xff 0 = 0xff
  rw [upd]
  simp

theorem c8_witness :
    staticNewMetadata 0 = 0x42
  ∧ (staticNewMetadata 0 = 0x42 →
      checkMetadata 8 32 false staticNewMetadata = writeMetadata 8 32 false staticNewMetadata)
  ∧ (staticNewMetadata 0 ≠ 0x42 → checkMetadata 8 32 false staticNewMetadata = staticNewMetadata)
  ∧ writeMetadata 8 32 false staticNewMetadata 0 = 0xff :=
  c8_sentinel 8 32 false staticNewMetadata

/-! ### Claim theorems: deallocation error path (C9) and underflow (C10) -/

/-- C9: once the layout converts, deallocate answers DoubleFreeOrCorruption
exactly when the byte at the index computed from the pointer offset lacks
the 0x80 occupied bit, and in that case not a single tree byte changes. -/
theorem c9_double_free (M A : Nat) (t : Tree) (off size align bs order : Nat)
    (hbs : buddySizeOf M size align = .ok bs) (ho : orderOf bs A = .ok order) :
    (deallocOp M A t off size align = .error .DoubleFreeOrCorruption ↔
      t ((1 <<< order) + off * (1 <<< order) / A) &&& 0x80 = 0)
  ∧ (t ((1 <<< order) + off * (1 <<< order) / A) &&& 0x80 = 0 →
      deallocRun M A t off size align = t) := by
  have hd : deallocOp M A t off size align =
      unsetMark t order ((1 <<< order) + off * (1 <<< order) / A) := by
    simp only [deallocOp, hbs, ho]
  constructor
  · rw [hd]
    unfold unsetMark
    by_cases hb : t ((1 <<< order) + off * (1 <<< order) / A) &&& 0x80 = 0
    · rw [if_pos hb]
      exact ⟨fun _ => hb, fun _ => rfl⟩
    · rw [if_neg hb]
      exact ⟨fun he => Except.noConfusion he, fun hc => absurd hc hb⟩
  · intro hb
    unfold deallocRun
    rw [hd]
    unfold unsetMark
    rw [if_pos hb]

theorem c9_witness :
    buddySizeOf 8 16 1 = .ok 16 ∧ orderOf 16 32 = .ok 1 ∧
    ((deallocOp 8 32 exTreeC3 0 16 1 = .error .DoubleFreeOrCorruption ↔
      exTreeC3 ((1 <<< 1) + 0 * (1 <<< 1) / 32) &&& 0x80 = 0)
  ∧ (exTreeC3 ((1 <<< 1) + 0 * (1 <<< 1) / 32) &&& 0x80 = 0 →
      deallocRun 8 32 exTreeC3 0 16 1 = exTreeC3)) :=
  ⟨by decide, by decide, c9_double_free 8 32 exTreeC3 0 16 1 16 1 (by decide) (by decide)⟩

theorem noUnderflowAux_of_range (fuel : Nat) : ∀ t index order,
    2 ^ order ≤ index → index < 2 ^ (order + 1) →
    noUnderflowAux fuel t index order = true := by
  induction fuel with
  | zero => intro t index order h1 h2; rfl
  | succ f ih =>
    intro t index order h1 h2
    simp only [noUnderflowAux]
    by_cases hidx : 1 < index
    · have hord : 1 ≤ order := by
        by_contra h0
        push_neg at h0
        have ho0 : order = 0 := by omega
        subst ho0
        simp at h1 h2
        omega
      obtain ⟨o, ho⟩ : ∃ o, order = o + 1 := ⟨order - 1, by omega⟩
      subst ho
      have hp1 : (2 : Nat) ^ (o + 1) = 2 * 2 ^ o := by rw [Nat.pow_succ]; ring
      have hp2 : (2 : Nat) ^ (o + 1 + 1) = 2 * 2 ^ (o + 1) := by rw [Nat.pow_succ]; ring
      have hlo : 2 ^ o ≤ index / 2 := by omega
      have hhi : index / 2 < 2 ^ (o + 1) := by omega
      rw [if_pos hidx]
      refine (Bool.and_eq_true _ _).mpr ⟨by simp, ?_⟩
      split
      all_goals split
      all_goals
        first
          | rfl
          | exact ih _ _ _ (by simpa using hlo) (by simpa using hhi)
    · rw [if_neg hidx]

/-- C10: the index dealloc computes from an in-arena pointer offset always
lies in [2 ^ order, 2 ^ (order + 1)), and on such an index the ancestor
loop of the deallocation keeps order at least 1 whenever its body runs, so
neither the coalescing order - 1 nor the per-level decrement underflows. -/
theorem c10_no_underflow (A : Nat) (t : Tree) (off order : Nat)
    (hA : 0 < A) (hoff : off < A) :
    ((1 <<< order) ≤ (1 <<< order) + off * (1 <<< order) / A
      ∧ (1 <<< order) + off * (1 <<< order) / A < (1 <<< (order + 1)))
  ∧ noUnderflow t ((1 <<< order) + off * (1 <<< order) / A) order = true := by
  simp only [Nat.one_shiftLeft]
  have hdiv : off * 2 ^ order / A < 2 ^ order := by
    rw [Nat.div_lt_iff_lt_mul hA]
    calc off * 2 ^ order < A * 2 ^ order :=
          (Nat.mul_lt_mul_right (Nat.pos_pow_of_pos order (by omega))).mpr hoff
      _ = 2 ^ order * A := Nat.mul_comm _ _
  have hp1 : (2 : Nat) ^ (order + 1) = 2 * 2 ^ order := by rw [Nat.pow_succ]; ring
  refine ⟨⟨Nat.le_add_right _ _, by omega⟩, ?_⟩
  exact noUnderflowAux_of_range _ t _ order (Nat.le_add_right _ _) (by omega)

theorem c10_witness :
    (0 : Nat) < 32 ∧ (16 : Nat) < 32 ∧
    (((1 <<< 1) ≤ (1 <<< 1) + 16 * (1 <<< 1) / 32
      ∧ (1 <<< 1) + 16 * (1 <<< 1) / 32 < (1 <<< (1 + 1)))
  ∧ noUnderflow exTreeC3 ((1 <<< 1) + 16 * (1 <<< 1) / 32) 1 = true) :=
  ⟨by decide, by decide, c10_no_underflow 32 exTreeC3 16 1 (by decide) (by decide)⟩

/-! ### Byte and depth toolkit for the tree invariant -/

theorem land127_of_le {v : Nat} (h : v ≤ 127) : v &&& 0x7f = v := by
  have h128 : (0x7f : Nat) = 2 ^ 7 - 1 := by norm_num
  rw [h128, Nat.and_pow_two_sub_one_eq_mod]
  exact Nat.mod_eq_of_lt (by omega)

theorem land_two_pow_add (n x : Nat) (hx : x < 2 ^ n) : (2 ^ n + x) &&& 2 ^ n = 2 ^ n := by
  apply Nat.eq_of_testBit_eq
  intro i
  rw [Nat.testBit_and]
  by_cases hi : i = n
  · subst hi
    rw [Nat.testBit_two_pow_add_eq, Nat.testBit_lt_two_pow hx, Nat.testBit_two_pow_self]
    rfl
  · rw [Nat.testBit_two_pow_of_ne (fun he => hi he.symm)]
    simp

theorem land_two_pow_of_lt (n x : Nat) (hx : x < 2 ^ n) : x &&& 2 ^ n = 0 := by
  apply Nat.eq_of_testBit_eq
  intro i
  rw [Nat.testBit_and]
  by_cases hi : i = n
  · subst hi
    rw [Nat.testBit_lt_two_pow hx]
    simp
  · rw [Nat.testBit_two_pow_of_ne (fun he => hi he.symm)]
    simp

theorem occByte_eq {mo : Nat} (hmo : mo ≤ 126) : occByte mo = 0x80 + mo + 1 := by
  unfold occByte
  exact Nat.mod_eq_of_lt (by omega)

theorem occByte_land {mo : Nat} (hmo : mo ≤ 126) : occByte mo &&& 0x7f = mo + 1 := by
  rw [occByte_eq hmo]
  have h128 : (0x7f : Nat) = 2 ^ 7 - 1 := by norm_num
  rw [h128, Nat.and_pow_two_sub_one_eq_mod]
  omega

theorem occByte_land80 {mo : Nat} (hmo : mo ≤ 126) : occByte mo &&& 0x80 = 0x80 := by
  rw [occByte_eq hmo]
  have he : (0x80 : Nat) + mo + 1 = 2 ^ 7 + (mo + 1) := by norm_num; omega
  rw [he]
  exact land_two_pow_add 7 (mo + 1) (by norm_num; omega)

theorem small_land80 {v : Nat} (h : v < 0x80) : v &&& 0x80 = 0 := by
  have h2 : (0x80 : Nat) = 2 ^ 7 := by norm_num
  rw [h2]
  exact land_two_pow_of_lt 7 v (by omega)

theorem occByte_large {mo : Nat} (hmo : mo ≤ 126) : 129 ≤ occByte mo := by
  rw [occByte_eq hmo]
  omega

theorem wrap_dec {o : Nat} (h1 : 1 ≤ o) (h2 : o ≤ 255) : (o + 255) % 256 = o - 1 := by
  omega

theorem depthOf_one : depthOf 1 = 0 := rfl

theorem depthOf_lower {j : Nat} (h : 1 ≤ j) : 2 ^ depthOf j ≤ j := by
  rw [depthOf_eq]
  exact (Nat.le_log2 (by omega)).mp le_rfl

theorem depthOf_upper (j : Nat) : j < 2 ^ (depthOf j + 1) := by
  rcases Nat.eq_zero_or_pos j with h | h
  · subst h
    norm_num
  · rw [depthOf_eq]
    exact (Nat.log2_lt (by omega)).mp (Nat.lt_succ_self _)

theorem depthOf_eq_of {j o : Nat} (h1 : 2 ^ o ≤ j) (h2 : j < 2 ^ (o + 1)) :
    depthOf j = o := by
  have hj : j ≠ 0 := by
    have : (1 : Nat) ≤ 2 ^ o := Nat.one_le_two_pow
    omega
  rw [depthOf_eq]
  have hle : o ≤ Nat.log2 j := (Nat.le_log2 hj).mpr h1
  have hlt : Nat.log2 j < o + 1 := (Nat.log2_lt hj).mpr h2
  omega

theorem depthOf_double {i : Nat} (h : 1 ≤ i) : depthOf (2 * i) = depthOf i + 1 := by
  have h1 := depthOf_lower h
  have h2 := depthOf_upper i
  apply depthOf_eq_of
  · rw [Nat.pow_succ]
    omega
  · rw [Nat.pow_succ, Nat.pow_succ]
    omega

theorem depthOf_double1 {i : Nat} (h : 1 ≤ i) : depthOf (2 * i + 1) = depthOf i + 1 := by
  have h1 := depthOf_lower h
  have h2 := depthOf_upper i
  apply depthOf_eq_of
  · rw [Nat.pow_succ]
    omega
  · rw [Nat.pow_succ, Nat.pow_succ]
    omega

theorem depthOf_pos {j : Nat} (h : 2 ≤ j) : 1 ≤ depthOf j := by
  by_contra h0
  push_neg at h0
  have hd : depthOf j = 0 := by omega
  have := depthOf_upper j
  rw [hd] at this
  norm_num at this
  omega

theorem depthOf_half {j : Nat} (h : 2 ≤ j) : depthOf (j / 2) + 1 = depthOf j := by
  have hd1 := depthOf_pos h
  have h1 := depthOf_lower (by omega : 1 ≤ j)
  have h2 := depthOf_upper j
  obtain ⟨d, hd⟩ : ∃ d, depthOf j = d + 1 := ⟨depthOf j - 1, by omega⟩
  rw [hd] at h1 h2
  have e1 : (2 : Nat) ^ (d + 1) = 2 * 2 ^ d := by rw [Nat.pow_succ]; ring
  have e2 : (2 : Nat) ^ (d + 1 + 1) = 2 * 2 ^ (d + 1) := by rw [Nat.pow_succ]; ring
  have hp : depthOf (j / 2) = d := depthOf_eq_of (by omega) (by omega)
  omega

theorem depthOf_le_of_lt {j k : Nat} (h1 : 1 ≤ j) (h2 : j < 2 ^ (k + 1)) :
    depthOf j ≤ k := by
  rw [depthOf_eq]
  have := (Nat.log2_lt (by omega : j ≠ 0)).mpr h2
  omega

theorem lt_pow_of_depth {j k : Nat} (h : depthOf j ≤ k) : j < 2 ^ (k + 1) :=
  lt_of_lt_of_le (depthOf_upper j) (Nat.pow_le_pow_right (by omega) (by omega))

theorem div_pow_succ_eq (j m : Nat) : j / 2 ^ m / 2 = j / 2 ^ (m + 1) := by
  rw [Nat.div_div_eq_div_mul, Nat.pow_succ]

theorem div_pow_chain (j m n : Nat) : j / 2 ^ m / 2 ^ n = j / 2 ^ (m + n) := by
  rw [Nat.div_div_eq_div_mul, Nat.pow_add]

theorem anc_pos {j m : Nat} (h1 : 1 ≤ j) (hm : m ≤ depthOf j) : 1 ≤ j / 2 ^ m := by
  have h2 := depthOf_lower h1
  have h3 : (2 : Nat) ^ m ≤ 2 ^ depthOf j := Nat.pow_le_pow_right (by omega) hm
  have h4 : 0 < (2 : Nat) ^ m := Nat.pos_pow_of_pos _ (by omega)
  exact (Nat.one_le_div_iff h4).mpr (by omega)

theorem depthOf_div_pow {j : Nat} (h1 : 1 ≤ j) :
    ∀ m, m ≤ depthOf j → depthOf (j / 2 ^ m) = depthOf j - m := by
  intro m
  induction m with
  | zero => intro _; simp
  | succ n ih =>
    intro hm
    have hn : n ≤ depthOf j := by omega
    have hrec := ih hn
    have hpos : 1 ≤ j / 2 ^ n := anc_pos h1 hn
    have h2 : 2 ≤ j / 2 ^ n := by
      have hd : 1 ≤ depthOf (j / 2 ^ n) := by omega
      have := depthOf_lower hpos
      have h3 : (2 : Nat) ^ 1 ≤ 2 ^ depthOf (j / 2 ^ n) := Nat.pow_le_pow_right (by omega) hd
      norm_num at h3
      omega
    have := depthOf_half h2
    rw [div_pow_succ_eq] at this
    omega

theorem anc_zero {j m : Nat} (h : depthOf j < m) : j / 2 ^ m = 0 := by
  apply Nat.div_eq_of_lt
  calc j < 2 ^ (depthOf j + 1) := depthOf_upper j
    _ ≤ 2 ^ m := Nat.pow_le_pow_right (by omega) (by omega)

/-! ### The freshly written metadata tree -/

theorem initLoop_get : ∀ r t co mem idx,
    1 ≤ mem → idx + mem = 2 ^ (co + 1) → (co = 0 ∨ mem ≤ 2 ^ co) →
    ∀ i, initLoop r t co mem idx i =
      if idx ≤ i ∧ i < idx + r then (if i = 0 then 0 else depthOf i) else t i := by
  intro r
  induction r with
  | zero =>
    intro t co mem idx hm hsum hco i
    rw [initLoop, if_neg (by omega)]
  | succ r ih =>
    intro t co mem idx hm hsum hco i
    have hval : upd t idx co idx = co := by
      rw [upd]
      simp
    have hwrite : (if idx = 0 then 0 else depthOf idx) = co := by
      rcases hco with hc0 | hcm
      · subst hc0
        norm_num at hsum
        by_cases h0 : idx = 0
        · rw [if_pos h0]
        · rw [if_neg h0]
          have h1 : idx = 1 := by omega
          rw [h1, depthOf_one]
      · by_cases h0 : idx = 0
        · exfalso
          have h1 : (2 : Nat) ^ co < 2 ^ (co + 1) := Nat.pow_lt_pow_succ (by omega)
          omega
        · rw [if_neg h0]
          have h1 : (2 : Nat) ^ (co + 1) = 2 * 2 ^ co := by rw [Nat.pow_succ]; ring
          exact depthOf_eq_of (by omega) (by omega)
    rw [initLoop]
    by_cases hmem : mem - 1 = 0
    · rw [if_pos hmem]
      have hm1 : mem = 1 := by omega
      have hsh : (1 : Nat) <<< (co + 1) = 2 ^ (co + 1) := Nat.one_shiftLeft _
      have h1 : (2 : Nat) ^ (co + 1 + 1) = 2 * 2 ^ (co + 1) := by rw [Nat.pow_succ]; ring
      rw [ih (upd t idx co) (co + 1) (1 <<< (co + 1)) (idx + 1)
        (by rw [hsh]; exact Nat.one_le_two_pow) (by rw [hsh]; omega)
        (Or.inr (by rw [hsh]))]
      by_cases hi : i = idx
      · subst hi
        rw [if_neg (by omega), if_pos (by omega), hval, hwrite]
      · rw [upd, if_neg hi]
        by_cases hin : idx ≤ i ∧ i < idx + (r + 1)
        · rw [if_pos (by omega), if_pos hin]
        · rw [if_neg (by omega), if_neg hin]
    · rw [if_neg hmem]
      have hle : mem - 1 ≤ 2 ^ co := by
        rcases hco with hc0 | hcm
        · subst hc0
          norm_num at hsum ⊢
          omega
        · omega
      rw [ih (upd t idx co) co (mem - 1) (idx + 1) (by omega) (by omega) (Or.inr hle)]
      by_cases hi : i = idx
      · subst hi
        rw [if_neg (by omega), if_pos (by omega), hval, hwrite]
      · rw [upd, if_neg hi]
        by_cases hin : idx ≤ i ∧ i < idx + (r + 1)
        · rw [if_pos (by omega), if_pos hin]
        · rw [if_neg (by omega), if_neg hin]

theorem freshTree_get (mo : Nat) (t : Tree) (i : Nat) :
    initLoop ((1 <<< mo) * 2) t 0 2 0 i =
      if i < 2 ^ (mo + 1) then (if i = 0 then 0 else depthOf i) else t i := by
  have hsh : ((1 : Nat) <<< mo) * 2 = 2 ^ (mo + 1) := by
    rw [Nat.one_shiftLeft, Nat.pow_succ]
  rw [initLoop_get _ t 0 2 0 (by omega) (by norm_num) (Or.inl rfl) i, hsh]
  by_cases hi : i < 2 ^ (mo + 1)
  · rw [if_pos (by omega), if_pos hi]
  · rw [if_neg (by omega), if_neg hi]

theorem initTree_get (mo i : Nat) :
    initTree mo i = if i < 2 ^ (mo + 1) then (if i = 0 then 0 else depthOf i) else 0 :=
  freshTree_get mo (fun _ => 0) i

theorem Inv_fresh (mo : Nat) (hmo : mo ≤ 126) (t : Tree) :
    Inv mo (initLoop ((1 <<< mo) * 2) t 0 2 0) := by
  have hget := freshTree_get mo t
  constructor
  · intro i h1 h2
    rw [hget i, if_pos h2, if_neg (by omega)]
    exact Or.inr ⟨le_rfl, by
      have := depthOf_le_of_lt h1 h2
      omega⟩
  · intro i h1 h2 _
    rw [hget i, if_pos h2, if_neg (by omega)]
    exact depthOf_eq_of h1 h2
  · intro i h1 h2 _
    have hi2 : i < 2 ^ (mo + 1) := by
      have hlt : (2 : Nat) ^ mo < 2 ^ (mo + 1) := Nat.pow_lt_pow_succ (by omega)
      omega
    have hc1 : 2 * i < 2 ^ (mo + 1) := by
      have h1' : (2 : Nat) ^ (mo + 1) = 2 * 2 ^ mo := by rw [Nat.pow_succ]; ring
      omega
    have hc2 : 2 * i + 1 < 2 ^ (mo + 1) := by
      have h1' : (2 : Nat) ^ (mo + 1) = 2 * 2 ^ mo := by rw [Nat.pow_succ]; ring
      omega
    have e0 : initLoop ((1 <<< mo) * 2) t 0 2 0 i = depthOf i := by
      rw [hget i, if_pos hi2, if_neg (by omega : ¬ i = 0)]
    have e1 : initLoop ((1 <<< mo) * 2) t 0 2 0 (2 * i) = depthOf i + 1 := by
      rw [hget (2 * i), if_pos hc1, if_neg (by omega : ¬ 2 * i = 0), depthOf_double h1]
    have e2 : initLoop ((1 <<< mo) * 2) t 0 2 0 (2 * i + 1) = depthOf i + 1 := by
      rw [hget (2 * i + 1), if_pos hc2, if_neg (by omega : ¬ 2 * i + 1 = 0),
        depthOf_double1 h1]
    rw [canon, e0, e1, e2, if_pos ⟨rfl, rfl⟩]
  · intro i h1 h2 hocc
    exfalso
    rw [hget i, if_pos h2, if_neg (by omega)] at hocc
    have hlarge := occByte_large hmo
    have hd := depthOf_le_of_lt h1 h2
    omega

theorem Inv_initTree (mo : Nat) (hmo : mo ≤ 126) : Inv mo (initTree mo) :=
  Inv_fresh mo hmo (fun _ => 0)

/-! ### The descent of set_mark under the invariant -/

theorem descendGo_char (mo : Nat) (hmo : mo ≤ 126) (t : Tree) (o : Nat) (ho : o ≤ mo)
    (hInv : Inv mo t) :
    ∀ s i, 1 ≤ i → i < 2 ^ (mo + 1) → depthOf i + s = o → t i ≤ o →
      1 ≤ descendGo t o s i ∧ descendGo t o s i < 2 ^ (mo + 1)
       ∧ depthOf (descendGo t o s i) = o
       ∧ t (descendGo t o s i) ≤ o
       ∧ descendGo t o s i / 2 ^ s = i
       ∧ (∀ m, 1 ≤ m → m ≤ s → t (descendGo t o s i / 2 ^ m) ≤ o) := by
  intro s
  induction s with
  | zero =>
    intro i h1 h2 hd ht
    have h0 : descendGo t o 0 i = i := rfl
    rw [h0]
    refine ⟨h1, h2, by omega, ht, by simp, ?_⟩
    intro m hm1 hm0
    omega
  | succ s ih =>
    intro i h1 h2 hd ht
    have hocc := occByte_large hmo
    have himo : i < 2 ^ mo := by
      have hup := depthOf_upper i
      have hle : depthOf i + 1 ≤ mo := by omega
      exact lt_of_lt_of_le hup (Nat.pow_le_pow_right (by omega) hle)
    have hfree : t i ≠ occByte mo := by omega
    have hcanon := hInv.canonical i h1 himo hfree
    have hpow : (2 : Nat) ^ (mo + 1) = 2 * 2 ^ mo := by rw [Nat.pow_succ]; ring
    have hcl : 2 * i < 2 ^ (mo + 1) := by omega
    have hcr : 2 * i + 1 < 2 ^ (mo + 1) := by omega
    have hcle : t (if t (2 * i) ≤ o then 2 * i else 2 * i + 1) ≤ o := by
      by_cases hl : t (2 * i) ≤ o
      · rw [if_pos hl]
        exact hl
      · rw [if_neg hl]
        rw [canon] at hcanon
        by_cases hexc : t (2 * i) = depthOf i + 1 ∧ t (2 * i + 1) = depthOf i + 1
        · exfalso
          have := hexc.1
          omega
        · rw [if_neg hexc] at hcanon
          have hmaskl : o < t (2 * i) &&& 0x7f := by
            rcases hInv.bounds (2 * i) (by omega) hcl with hob | ⟨hlo, hhi⟩
            · rw [hob, occByte_land hmo]
              omega
            · rw [land127_of_le (by omega)]
              omega
          have hminr : t (2 * i + 1) &&& 0x7f ≤ o := by
            have hmin : min (t (2 * i) &&& 0x7f) (t (2 * i + 1) &&& 0x7f) ≤ o := by
              omega
            omega
          rcases hInv.bounds (2 * i + 1) (by omega) hcr with hob | ⟨hlo, hhi⟩
          · rw [hob, occByte_land hmo] at hminr
            omega
          · rw [land127_of_le (by omega)] at hminr
            exact hminr
    have hchild : (if t (2 * i) ≤ o then 2 * i else 2 * i + 1) / 2 = i := by
      by_cases hl : t (2 * i) ≤ o
      · rw [if_pos hl]
        omega
      · rw [if_neg hl]
        omega
    have hcd : depthOf (if t (2 * i) ≤ o then 2 * i else 2 * i + 1) + s = o := by
      by_cases hl : t (2 * i) ≤ o
      · rw [if_pos hl, depthOf_double h1]
        omega
      · rw [if_neg hl, depthOf_double1 h1]
        omega
    have hcv1 : 1 ≤ (if t (2 * i) ≤ o then 2 * i else 2 * i + 1) := by
      split <;> omega
    have hcv2 : (if t (2 * i) ≤ o then 2 * i else 2 * i + 1) < 2 ^ (mo + 1) := by
      split
      · exact hcl
      · exact hcr
    have hrec := ih _ hcv1 hcv2 hcd hcle
    have hstep : descendGo t o (s + 1) i
        = descendGo t o s (if t (2 * i) ≤ o then 2 * i else 2 * i + 1) := rfl
    rw [hstep]
    obtain ⟨r1, r2, r3, r4, r5, r6⟩ := hrec
    refine ⟨r1, r2, r3, r4, ?_, ?_⟩
    · rw [← div_pow_succ_eq, r5, hchild]
    · intro m hm1 hms
      rcases Nat.lt_or_ge m (s + 1) with hlt | hge
      · exact r6 m hm1 (by omega)
      · have hm : m = s + 1 := by omega
        subst hm
        rw [← div_pow_succ_eq, r5, hchild]
        exact ht

theorem descend_char (mo : Nat) (hmo : mo ≤ 126) (t : Tree) (o : Nat) (ho : o ≤ mo)
    (hInv : Inv mo t) (hroot : t 1 ≤ o) :
    1 ≤ descend t o ∧ descend t o < 2 ^ (mo + 1) ∧ depthOf (descend t o) = o
      ∧ t (descend t o) = o ∧ descend t o / 2 ^ o = 1
      ∧ (∀ m, 1 ≤ m → m ≤ o → t (descend t o / 2 ^ m) ≤ o) := by
  have hp : (2 : Nat) ^ (mo + 1) ≥ 2 := by
    calc (2 : Nat) ≤ 2 ^ 1 := by norm_num
      _ ≤ 2 ^ (mo + 1) := Nat.pow_le_pow_right (by omega) (by omega)
  have h := descendGo_char mo hmo t o ho hInv o 1 (by omega) (by omega)
    (by rw [depthOf_one]; omega) hroot
  unfold descend
  obtain ⟨r1, r2, r3, r4, r5, r6⟩ := h
  refine ⟨r1, r2, r3, ?_, r5, r6⟩
  rcases hInv.bounds _ r1 r2 with hob | ⟨hlo, hhi⟩
  · have := occByte_large hmo
    omega
  · omega

/-! ### The ancestor-repair loop under the invariant -/

theorem upd_ne {t : Tree} {i v k : Nat} (h : k ≠ i) : upd t i v k = t k := by
  rw [upd, if_neg h]

theorem upd_self (t : Tree) (i v : Nat) : upd t i v i = v := by
  rw [upd]
  simp

theorem canon_congr {t s : Tree} {i : Nat} (h1 : t (2 * i) = s (2 * i))
    (h2 : t (2 * i + 1) = s (2 * i + 1)) : canon t i = canon s i := by
  rw [canon, canon, h1, h2]

theorem half_div_pow (index m : Nat) : index / 2 / 2 ^ m = index / 2 ^ (m + 1) := by
  rw [Nat.div_div_eq_div_mul]
  congr 1
  rw [Nat.pow_succ]
  ring

theorem child_mask_bounds (mo : Nat) (hmo : mo ≤ 126) (t : Tree)
    (hb : ∀ i, 1 ≤ i → i < 2 ^ (mo + 1) →
      t i = occByte mo ∨ (depthOf i ≤ t i ∧ t i ≤ mo + 1))
    (c : Nat) (h1 : 1 ≤ c) (h2 : c < 2 ^ (mo + 1)) :
    depthOf c ≤ t c &&& 0x7f ∧ t c &&& 0x7f ≤ mo + 1 := by
  rcases hb c h1 h2 with hob | ⟨hlo, hhi⟩
  · rw [hob, occByte_land hmo]
    have := depthOf_le_of_lt h1 h2
    omega
  · rw [land127_of_le (by omega)]
    omega

theorem canon_bounds (mo : Nat) (hmo : mo ≤ 126) (t : Tree) (p : Nat)
    (hp1 : 1 ≤ p) (hpm : p < 2 ^ mo)
    (hb : ∀ i, 1 ≤ i → i < 2 ^ (mo + 1) →
      t i = occByte mo ∨ (depthOf i ≤ t i ∧ t i ≤ mo + 1)) :
    depthOf p ≤ canon t p ∧ canon t p ≤ mo + 1
    ∧ (¬ (t (2 * p) = depthOf p + 1 ∧ t (2 * p + 1) = depthOf p + 1) →
        depthOf p + 1 ≤ canon t p) := by
  have hpow : (2 : Nat) ^ (mo + 1) = 2 * 2 ^ mo := by rw [Nat.pow_succ]; ring
  have hclv : 2 * p < 2 ^ (mo + 1) := by omega
  have hcrv : 2 * p + 1 < 2 ^ (mo + 1) := by omega
  have hml := child_mask_bounds mo hmo t hb (2 * p) (by omega) hclv
  have hmr := child_mask_bounds mo hmo t hb (2 * p + 1) (by omega) hcrv
  rw [depthOf_double hp1] at hml
  rw [depthOf_double1 hp1] at hmr
  rw [canon]
  by_cases hexc : t (2 * p) = depthOf p + 1 ∧ t (2 * p + 1) = depthOf p + 1
  · rw [if_pos hexc]
    have hd := depthOf_le_of_lt hp1 (lt_of_lt_of_le hpm (by omega : (2:Nat)^mo ≤ 2^(mo+1)))
    exact ⟨le_rfl, by omega, fun hne => absurd hexc hne⟩
  · rw [if_neg hexc]
    exact ⟨by omega, by omega, fun _ => by omega⟩

theorem mpAux_repair (mo : Nat) (hmo : mo ≤ 126) (op : Op) : ∀ fuel index t,
    index ≤ fuel →
    1 ≤ index → index < 2 ^ (mo + 1) →
    (∀ i, 1 ≤ i → i < 2 ^ (mo + 1) →
      t i = occByte mo ∨ (depthOf i ≤ t i ∧ t i ≤ mo + 1)) →
    (∀ i, 2 ^ mo ≤ i → i < 2 ^ (mo + 1) → t i ≠ occByte mo → t i = mo) →
    (∀ i, 1 ≤ i → i < 2 ^ mo → t i ≠ occByte mo → i ≠ index / 2 → t i = canon t i) →
    (∀ m, 1 ≤ m → m ≤ depthOf index → t (index / 2 ^ m) ≠ occByte mo) →
    (op = Op.Allocate → depthOf index + 1 ≤ t index ∨ t index = occByte mo) →
    (∀ i, 1 ≤ i → i < 2 ^ (mo + 1) → t i = occByte mo →
      ∀ j m, 1 ≤ m → j < 2 ^ (mo + 1) → j / 2 ^ m = i → t j = depthOf j) →
    (Inv mo (mpAux op fuel t index (depthOf index))
     ∧ (∀ k, (∀ m, 1 ≤ m → m ≤ depthOf index → k ≠ index / 2 ^ m) →
         mpAux op fuel t index (depthOf index) k = t k)
     ∧ (∀ k, mpAux op fuel t index (depthOf index) k = occByte mo ↔ t k = occByte mo)) := by
  intro fuel
  induction fuel with
  | zero =>
    intro index t hfu h1
    omega
  | succ f ih =>
    intro index t hfu h1 h2 hb hl hc hanc hop hst
    by_cases hidx : 1 < index
    swap
    · have hi1 : index = 1 := by omega
      subst hi1
      have hmp : mpAux op (f + 1) t 1 (depthOf 1) = t := by
        simp only [mpAux]
        rw [if_neg (by omega)]
      rw [hmp]
      refine ⟨⟨hb, hl, ?_, hst⟩, fun k _ => rfl, fun k => Iff.rfl⟩
      intro i hi1 hi2 hfree
      exact hc i hi1 hi2 hfree (by omega)
    · have hocc := occByte_large hmo
      have hd1 : 1 ≤ depthOf index := depthOf_pos (by omega)
      have hdmo : depthOf index ≤ mo := depthOf_le_of_lt (by omega) h2
      have hp1 : 1 ≤ index / 2 := by omega
      have hpd : depthOf (index / 2) + 1 = depthOf index := depthOf_half (by omega)
      have hpmo : index / 2 < 2 ^ mo := by
        have hup := depthOf_upper (index / 2)
        have h3 : (2 : Nat) ^ (depthOf (index / 2) + 1) ≤ 2 ^ mo :=
          Nat.pow_le_pow_right (by omega) (by omega)
        omega
      have hpow : (2 : Nat) ^ (mo + 1) = 2 * 2 ^ mo := by rw [Nat.pow_succ]; ring
      have hp2 : index / 2 < 2 ^ (mo + 1) := by omega
      have hchild : index = 2 * (index / 2) ∨ index = 2 * (index / 2) + 1 := by omega
      have hclv : 2 * (index / 2) < 2 ^ (mo + 1) := by omega
      have hcrv : 2 * (index / 2) + 1 < 2 ^ (mo + 1) := by omega
      have hdiv1 : index / 2 ^ 1 = index / 2 := by norm_num
      have hpfree : t (index / 2) ≠ occByte mo := by
        have := hanc 1 (by omega) (by omega)
        rw [hdiv1] at this
        exact this
      have hexc_fail : op = Op.Allocate →
          ¬ (t (2 * (index / 2)) = depthOf (index / 2) + 1
             ∧ t (2 * (index / 2) + 1) = depthOf (index / 2) + 1) := by
        intro hAl hx
        rcases hop hAl with hge | hob
        · rcases hchild with hcl | hcr
          · have := hx.1
            rw [← hcl] at this
            omega
          · have := hx.2
            rw [← hcr] at this
            omega
        · rcases hchild with hcl | hcr
          · have := hx.1
            rw [← hcl, hob] at this
            omega
          · have := hx.2
            rw [← hcr, hob] at this
            omega
      have hni : newIndiceOf op t (index / 2) (depthOf index) = canon t (index / 2) := by
        cases op with
        | Allocate =>
          rw [newIndiceOf, canon, if_neg (hexc_fail rfl), minB_eq_min]
        | Deallocate =>
          rw [newIndiceOf]
          by_cases hx : t (2 * (index / 2)) = depthOf index
              ∧ t (2 * (index / 2) + 1) = depthOf index
          · have hx1 := hx.1
            have hx2 := hx.2
            rw [if_pos hx, canon, if_pos ⟨by omega, by omega⟩,
              wrap_dec (by omega) (by omega)]
            omega
          · rw [if_neg hx, canon, if_neg (fun hy => hx ⟨by omega, by omega⟩), minB_eq_min]
      have hcb := canon_bounds mo hmo t (index / 2) hp1 hpmo hb
      have hunfold : mpAux op (f + 1) t index (depthOf index) =
          if t (index / 2) ≠ canon t (index / 2) then
            mpAux op f (upd t (index / 2) (canon t (index / 2))) (index / 2)
              ((depthOf index + 255) % 256)
          else t := by
        simp only [mpAux]
        rw [if_pos hidx, hni]
      have hord : (depthOf index + 255) % 256 = depthOf (index / 2) := by
        rw [wrap_dec (by omega) (by omega)]
        omega
      rw [hunfold, hord]
      by_cases hwrite : t (index / 2) ≠ canon t (index / 2)
      swap
      · push_neg at hwrite
        rw [if_neg (fun hq => hq hwrite)]
        refine ⟨⟨hb, hl, ?_, hst⟩, fun k _ => rfl, fun k => Iff.rfl⟩
        intro i hi1 hi2 hfree
        by_cases hip : i = index / 2
        · subst hip
          exact hwrite
        · exact hc i hi1 hi2 hfree hip
      · rw [if_pos hwrite]
        have hvp : upd t (index / 2) (canon t (index / 2)) (index / 2)
            = canon t (index / 2) := upd_self t _ _
        have hclne : 2 * (index / 2) ≠ index / 2 := by omega
        have hcrne : 2 * (index / 2) + 1 ≠ index / 2 := by omega
        have hecl : upd t (index / 2) (canon t (index / 2)) (2 * (index / 2))
            = t (2 * (index / 2)) := upd_ne hclne
        have hecr : upd t (index / 2) (canon t (index / 2)) (2 * (index / 2) + 1)
            = t (2 * (index / 2) + 1) := upd_ne hcrne
        have hB2 : ∀ i, 1 ≤ i → i < 2 ^ (mo + 1) →
            upd t (index / 2) (canon t (index / 2)) i = occByte mo ∨
            (depthOf i ≤ upd t (index / 2) (canon t (index / 2)) i ∧
             upd t (index / 2) (canon t (index / 2)) i ≤ mo + 1) := by
          intro i hi1 hi2
          by_cases hip : i = index / 2
          · subst hip
            rw [hvp]
            exact Or.inr ⟨hcb.1, hcb.2.1⟩
          · rw [upd_ne hip]
            exact hb i hi1 hi2
        have hL2 : ∀ i, 2 ^ mo ≤ i → i < 2 ^ (mo + 1) →
            upd t (index / 2) (canon t (index / 2)) i ≠ occByte mo →
            upd t (index / 2) (canon t (index / 2)) i = mo := by
          intro i hi1 hi2 hfree
          have hip : i ≠ index / 2 := by omega
          rw [upd_ne hip] at hfree ⊢
          exact hl i hi1 hi2 hfree
        have hC2 : ∀ i, 1 ≤ i → i < 2 ^ mo →
            upd t (index / 2) (canon t (index / 2)) i ≠ occByte mo →
            i ≠ index / 2 / 2 →
            upd t (index / 2) (canon t (index / 2)) i
              = canon (upd t (index / 2) (canon t (index / 2))) i := by
          intro i hi1 hi2 hfree higp
          by_cases hip : i = index / 2
          · subst hip
            rw [hvp]
            exact (canon_congr hecl hecr).symm
          · have hval : upd t (index / 2) (canon t (index / 2)) i = t i := upd_ne hip
            have hfree2 : t i ≠ occByte mo := by
              rw [← hval]
              exact hfree
            have hcl2 : 2 * i ≠ index / 2 := by
              intro he
              apply higp
              omega
            have hcr2 : 2 * i + 1 ≠ index / 2 := by
              intro he
              apply higp
              omega
            have e1 : upd t (index / 2) (canon t (index / 2)) (2 * i) = t (2 * i) :=
              upd_ne hcl2
            have e2 : upd t (index / 2) (canon t (index / 2)) (2 * i + 1) = t (2 * i + 1) :=
              upd_ne hcr2
            rw [hval, canon_congr e1 e2]
            exact hc i hi1 hi2 hfree2 hip
        have hanc2 : ∀ m, 1 ≤ m → m ≤ depthOf (index / 2) →
            upd t (index / 2) (canon t (index / 2)) (index / 2 / 2 ^ m) ≠ occByte mo := by
          intro m hm1 hm2
          have hlt : index / 2 / 2 ^ m < index / 2 := by
            have h2m : (2 : Nat) ≤ 2 ^ m := by
              calc (2 : Nat) = 2 ^ 1 := by norm_num
                _ ≤ 2 ^ m := Nat.pow_le_pow_right (by omega) (by omega)
            have hle : index / 2 / 2 ^ m ≤ index / 2 / 2 :=
              Nat.div_le_div_left h2m (by omega)
            omega
          rw [upd_ne (by omega : index / 2 / 2 ^ m ≠ index / 2), half_div_pow]
          exact hanc (m + 1) (by omega) (by omega)
        have hop2 : op = Op.Allocate →
            depthOf (index / 2) + 1 ≤ upd t (index / 2) (canon t (index / 2)) (index / 2) ∨
            upd t (index / 2) (canon t (index / 2)) (index / 2) = occByte mo := by
          intro hAl
          left
          rw [hvp]
          exact hcb.2.2 (hexc_fail hAl)
        have hst2 : ∀ i, 1 ≤ i → i < 2 ^ (mo + 1) →
            upd t (index / 2) (canon t (index / 2)) i = occByte mo →
            ∀ j m, 1 ≤ m → j < 2 ^ (mo + 1) → j / 2 ^ m = i →
            upd t (index / 2) (canon t (index / 2)) j = depthOf j := by
          intro i hi1 hi2 hiocc j m hm1 hj2 hjdiv
          have hip : i ≠ index / 2 := by
            intro he
            subst he
            rw [hvp] at hiocc
            have := hcb.2.1
            omega
          have hiocc0 : t i = occByte mo := by
            rw [upd_ne hip] at hiocc
            exact hiocc
          have hjp : j ≠ index / 2 := by
            intro he
            subst he
            have hmle : m ≤ depthOf (index / 2) := by
              by_contra hmm2
              push_neg at hmm2
              have hz : index / 2 / 2 ^ m = 0 := anc_zero (by omega)
              rw [hz] at hjdiv
              omega
            rw [half_div_pow] at hjdiv
            have hfr := hanc (m + 1) (by omega) (by omega)
            rw [hjdiv] at hfr
            exact hfr hiocc0
          rw [upd_ne hjp]
          exact hst i hi1 hi2 hiocc0 j m hm1 hj2 hjdiv
        have hfu2 : index / 2 ≤ f := by omega
        have hres := ih (index / 2) (upd t (index / 2) (canon t (index / 2))) hfu2 hp1 hp2
          hB2 hL2 hC2 hanc2 hop2 hst2
        obtain ⟨hInv2, hloc2, hocc2⟩ := hres
        refine ⟨hInv2, ?_, ?_⟩
        · intro k hk
          have hkp : k ≠ index / 2 := by
            have := hk 1 (by omega) (by omega)
            rw [hdiv1] at this
            exact this
          have hk2 : ∀ m, 1 ≤ m → m ≤ depthOf (index / 2) → k ≠ index / 2 / 2 ^ m := by
            intro m hm1 hm2
            rw [half_div_pow]
            exact hk (m + 1) (by omega) (by omega)
          rw [hloc2 k hk2, upd_ne hkp]
        · intro k
          rw [hocc2 k]
          by_cases hkp : k = index / 2
          · subst hkp
            rw [hvp]
            constructor
            · intro hko
              exfalso
              have := hcb.2.1
              omega
            · intro hko
              exact absurd hko hpfree
          · rw [upd_ne hkp]

/-! ### Characterising one allocation and one deallocation -/

theorem subtree_fully_free (mo : Nat) (hmo : mo ≤ 126) (t : Tree) (hInv : Inv mo t)
    (i : Nat) (hi1 : 1 ≤ i) (hv : t i = depthOf i) :
    ∀ m j, 1 ≤ j → j < 2 ^ (mo + 1) → j / 2 ^ m = i → t j = depthOf j := by
  intro m
  induction m with
  | zero =>
    intro j h1 h2 hdiv
    simp at hdiv
    rw [hdiv]
    exact hv
  | succ n ihm =>
    intro j h1 h2 hdiv
    have hocc := occByte_large hmo
    have hj2 : 2 ≤ j := by
      rcases Nat.lt_or_ge j 2 with hlt | hge
      · exfalso
        have hj1 : j = 1 := by omega
        subst hj1
        have hz : 1 / 2 ^ (n + 1) = 0 := Nat.div_eq_of_lt (by
          calc 1 < 2 := by norm_num
            _ = 2 ^ 1 := by norm_num
            _ ≤ 2 ^ (n + 1) := Nat.pow_le_pow_right (by omega) (by omega))
        rw [hz] at hdiv
        omega
      · exact hge
    have hpdiv : j / 2 / 2 ^ n = i := by
      rw [half_div_pow]
      exact hdiv
    have hp1 : 1 ≤ j / 2 := by omega
    have hp2 : j / 2 < 2 ^ (mo + 1) := by omega
    have hp := ihm (j / 2) hp1 hp2 hpdiv
    have hpow : (2 : Nat) ^ (mo + 1) = 2 * 2 ^ mo := by rw [Nat.pow_succ]; ring
    have hpmo : j / 2 < 2 ^ mo := by omega
    have hdpm : depthOf (j / 2) ≤ mo :=
      depthOf_le_of_lt hp1 (by omega)
    have hpfree : t (j / 2) ≠ occByte mo := by
      rw [hp]
      omega
    have hcanon := hInv.canonical (j / 2) hp1 hpmo hpfree
    rw [hp, canon] at hcanon
    have hdj : depthOf (j / 2) + 1 = depthOf j := depthOf_half hj2
    by_cases hexc : t (2 * (j / 2)) = depthOf (j / 2) + 1
        ∧ t (2 * (j / 2) + 1) = depthOf (j / 2) + 1
    · have hx1 := hexc.1
      have hx2 := hexc.2
      obtain ⟨p, hpeq⟩ : ∃ p, j / 2 = p := ⟨j / 2, rfl⟩
      rw [hpeq] at hx1 hx2 hdj
      have hjcase : j = 2 * p ∨ j = 2 * p + 1 := by omega
      rcases hjcase with hje | hje
      · rw [hje] at hdj ⊢
        rw [hx1]
        exact hdj
      · rw [hje] at hdj ⊢
        rw [hx2]
        exact hdj
    · exfalso
      rw [if_neg hexc] at hcanon
      have hclv : 2 * (j / 2) < 2 ^ (mo + 1) := by omega
      have hcrv : 2 * (j / 2) + 1 < 2 ^ (mo + 1) := by omega
      have hml := child_mask_bounds mo hmo t hInv.bounds (2 * (j / 2)) (by omega) hclv
      have hmr := child_mask_bounds mo hmo t hInv.bounds (2 * (j / 2) + 1) (by omega) hcrv
      rw [depthOf_double hp1] at hml
      rw [depthOf_double1 hp1] at hmr
      omega

theorem setMarkO_char (mo : Nat) (hmo : mo ≤ 126) {t : Tree} {o : Nat} (ho : o ≤ mo)
    (hInv : Inv mo t) {t2 : Tree} {j : Nat}
    (hsm : setMarkO mo t o = .ok (t2, j)) :
    1 ≤ j ∧ j < 2 ^ (mo + 1) ∧ depthOf j = o ∧ t j = o
    ∧ Inv mo t2 ∧ t2 j = occByte mo
    ∧ (∀ k, (∀ m, 1 ≤ m → m ≤ o → k ≠ j / 2 ^ m) → k ≠ j → t2 k = t k)
    ∧ (∀ k, t2 k = occByte mo ↔ (t k = occByte mo ∨ k = j))
    ∧ (∀ k, 1 ≤ k → k < 2 ^ (mo + 1) → t k = occByte mo →
        (∀ m, 1 ≤ m → j / 2 ^ m ≠ k) ∧ (∀ m, 1 ≤ m → k / 2 ^ m ≠ j)) := by
  have hocc := occByte_large hmo
  rw [setMarkO] at hsm
  by_cases hroot : o < t 1
  · rw [if_pos hroot] at hsm
    exact absurd hsm (fun he => Except.noConfusion he)
  · rw [if_neg hroot] at hsm
    have hpair := Except.ok.inj hsm
    have hjj : j = descend t o := (congrArg Prod.snd hpair).symm
    have htt : t2 = modifyParents (upd t (descend t o) (occByte mo)) (descend t o) o
        .Allocate := (congrArg Prod.fst hpair).symm
    subst hjj
    obtain ⟨d1, d2, d3, d4, d5, d6⟩ :=
      descend_char mo hmo t o ho hInv (by omega)
    have hanc_lt : ∀ m, 1 ≤ m → descend t o / 2 ^ m < descend t o := by
      intro m hm
      have h2m : (2 : Nat) ≤ 2 ^ m := by
        calc (2 : Nat) = 2 ^ 1 := by norm_num
          _ ≤ 2 ^ m := Nat.pow_le_pow_right (by omega) (by omega)
      calc descend t o / 2 ^ m ≤ descend t o / 2 := Nat.div_le_div_left h2m (by omega)
        _ < descend t o := by omega
    have hB1 : ∀ i, 1 ≤ i → i < 2 ^ (mo + 1) →
        upd t (descend t o) (occByte mo) i = occByte mo ∨
        (depthOf i ≤ upd t (descend t o) (occByte mo) i ∧
         upd t (descend t o) (occByte mo) i ≤ mo + 1) := by
      intro i hi1 hi2
      by_cases hip : i = descend t o
      · subst hip
        rw [upd_self]
        exact Or.inl rfl
      · rw [upd_ne hip]
        exact hInv.bounds i hi1 hi2
    have hL1 : ∀ i, 2 ^ mo ≤ i → i < 2 ^ (mo + 1) →
        upd t (descend t o) (occByte mo) i ≠ occByte mo →
        upd t (descend t o) (occByte mo) i = mo := by
      intro i hi1 hi2 hfree
      by_cases hip : i = descend t o
      · subst hip
        rw [upd_self] at hfree
        exact absurd rfl hfree
      · rw [upd_ne hip] at hfree ⊢
        exact hInv.leaves i hi1 hi2 hfree
    have hC1 : ∀ i, 1 ≤ i → i < 2 ^ mo →
        upd t (descend t o) (occByte mo) i ≠ occByte mo →
        i ≠ descend t o / 2 →
        upd t (descend t o) (occByte mo) i
          = canon (upd t (descend t o) (occByte mo)) i := by
      intro i hi1 hi2 hfree higp
      by_cases hip : i = descend t o
      · subst hip
        rw [upd_self] at hfree
        exact absurd rfl hfree
      · have hcl2 : 2 * i ≠ descend t o := by
          intro he
          apply higp
          omega
        have hcr2 : 2 * i + 1 ≠ descend t o := by
          intro he
          apply higp
          omega
        rw [upd_ne hip, canon_congr (upd_ne hcl2) (upd_ne hcr2)]
        exact hInv.canonical i hi1 hi2 (by
          rw [upd_ne hip] at hfree
          exact hfree)
    have hanc1 : ∀ m, 1 ≤ m → m ≤ depthOf (descend t o) →
        upd t (descend t o) (occByte mo) (descend t o / 2 ^ m) ≠ occByte mo := by
      intro m hm1 hm2
      rw [upd_ne (by
        have := hanc_lt m hm1
        omega)]
      have := d6 m hm1 (by omega)
      omega
    have hop1 : Op.Allocate = Op.Allocate →
        depthOf (descend t o) + 1 ≤ upd t (descend t o) (occByte mo) (descend t o) ∨
        upd t (descend t o) (occByte mo) (descend t o) = occByte mo := by
      intro _
      right
      exact upd_self t _ _
    have hst1 : ∀ i, 1 ≤ i → i < 2 ^ (mo + 1) →
        upd t (descend t o) (occByte mo) i = occByte mo →
        ∀ j2 m, 1 ≤ m → j2 < 2 ^ (mo + 1) → j2 / 2 ^ m = i →
        upd t (descend t o) (occByte mo) j2 = depthOf j2 := by
      intro i hi1 hi2 hiocc j2 m hm1 hj2v hjdiv
      have hdesc_gt : j2 ≠ 0 := by
        intro he
        subst he
        rw [Nat.zero_div] at hjdiv
        omega
      have hj2lower : i * 2 ^ m ≤ j2 := by
        rw [← hjdiv]
        exact Nat.div_mul_le_self j2 (2 ^ m)
      have h2m : (2 : Nat) ≤ 2 ^ m := by
        calc (2 : Nat) = 2 ^ 1 := by norm_num
          _ ≤ 2 ^ m := Nat.pow_le_pow_right (by omega) (by omega)
      have hj2i : i < j2 := by
        have : i * 2 ≤ i * 2 ^ m := Nat.mul_le_mul_left i h2m
        omega
      by_cases hip : i = descend t o
      · subst hip
        have hj2d : j2 ≠ descend t o := by omega
        rw [upd_ne hj2d]
        exact subtree_fully_free mo hmo t hInv (descend t o) d1 (by omega) m j2
          (by omega) hj2v hjdiv
      · rw [upd_ne hip] at hiocc
        have hj2d : j2 ≠ descend t o := by
          intro he
          rw [he] at hjdiv
          have hmle : m ≤ depthOf (descend t o) := by
            by_contra hmm
            push_neg at hmm
            rw [anc_zero hmm] at hjdiv
            omega
          have := d6 m hm1 (by omega)
          rw [hjdiv] at this
          omega
        rw [upd_ne hj2d]
        exact hInv.stale i hi1 hi2 hiocc j2 m hm1 hj2v hjdiv
    have hmp := mpAux_repair mo hmo Op.Allocate (descend t o)
      (descend t o) (upd t (descend t o) (occByte mo)) le_rfl d1 d2
      hB1 hL1 hC1 hanc1 hop1 hst1
    rw [d3] at hmp
    have htt2 : t2 = mpAux Op.Allocate (descend t o)
        (upd t (descend t o) (occByte mo)) (descend t o) o := htt
    obtain ⟨hInv2, hloc2, hocc2⟩ := hmp
    rw [← htt2] at hInv2 hloc2 hocc2
    have hself : ∀ m, 1 ≤ m → m ≤ o → (descend t o : Nat) ≠ descend t o / 2 ^ m := by
      intro m hm1 _
      have := hanc_lt m hm1
      omega
    have ht2j : t2 (descend t o) = occByte mo := by
      rw [hloc2 (descend t o) hself]
      exact upd_self t _ _
    refine ⟨d1, d2, d3, d4, hInv2, ht2j, ?_, ?_, ?_⟩
    · intro k hk hkj
      rw [hloc2 k hk]
      exact upd_ne hkj
    · intro k
      rw [hocc2 k]
      by_cases hkj : k = descend t o
      · subst hkj
        rw [upd_self]
        exact ⟨fun _ => Or.inr rfl, fun _ => rfl⟩
      · rw [upd_ne hkj]
        exact ⟨Or.inl, fun h => h.resolve_right hkj⟩
    · intro k hk1 hk2 hkocc
      constructor
      · intro m hm1 he
        rcases le_or_lt m o with hmo2 | hmo2
        · have := d6 m hm1 hmo2
          rw [he] at this
          omega
        · have hz : descend t o / 2 ^ m = 0 :=
            anc_zero (show depthOf (descend t o) < m by omega)
          rw [hz] at he
          omega
      · intro m hm1 hdiv
        have hfull := subtree_fully_free mo hmo t hInv (descend t o) d1
          (by rw [d4, d3]) m k hk1 hk2 hdiv
        have hdk : depthOf k ≤ mo := depthOf_le_of_lt hk1 hk2
        omega

theorem unsetMark_char (mo : Nat) (hmo : mo ≤ 126) {t : Tree} {j : Nat}
    (hInv : Inv mo t) (hj1 : 1 ≤ j) (hj2 : j < 2 ^ (mo + 1)) (hjocc : t j = occByte mo) :
    unsetMark t (depthOf j) j
      = .ok (modifyParents (upd t j (depthOf j)) j (depthOf j) .Deallocate)
    ∧ Inv mo (modifyParents (upd t j (depthOf j)) j (depthOf j) .Deallocate)
    ∧ (∀ k, (∀ m, 1 ≤ m → m ≤ depthOf j → k ≠ j / 2 ^ m) → k ≠ j →
        modifyParents (upd t j (depthOf j)) j (depthOf j) .Deallocate k = t k)
    ∧ (∀ k, modifyParents (upd t j (depthOf j)) j (depthOf j) .Deallocate k = occByte mo
        ↔ (t k = occByte mo ∧ k ≠ j)) := by
  have hocc := occByte_large hmo
  have hdj : depthOf j ≤ mo := depthOf_le_of_lt hj1 hj2
  have hanc0 : ∀ m, 1 ≤ m → m ≤ depthOf j → t (j / 2 ^ m) ≠ occByte mo := by
    intro m hm1 hm2 hocc2
    have hav : j / 2 ^ m < 2 ^ (mo + 1) := by
      have := Nat.div_le_self j (2 ^ m)
      omega
    have hstale := hInv.stale (j / 2 ^ m) (anc_pos hj1 hm2) hav hocc2 j m hm1 hj2 rfl
    omega
  have hB1 : ∀ i, 1 ≤ i → i < 2 ^ (mo + 1) →
      upd t j (depthOf j) i = occByte mo ∨
      (depthOf i ≤ upd t j (depthOf j) i ∧ upd t j (depthOf j) i ≤ mo + 1) := by
    intro i hi1 hi2
    by_cases hip : i = j
    · subst hip
      rw [upd_self]
      exact Or.inr ⟨le_rfl, by omega⟩
    · rw [upd_ne hip]
      exact hInv.bounds i hi1 hi2
  have hL1 : ∀ i, 2 ^ mo ≤ i → i < 2 ^ (mo + 1) →
      upd t j (depthOf j) i ≠ occByte mo → upd t j (depthOf j) i = mo := by
    intro i hi1 hi2 hfree
    by_cases hip : i = j
    · subst hip
      rw [upd_self]
      exact depthOf_eq_of hi1 hi2
    · rw [upd_ne hip] at hfree ⊢
      exact hInv.leaves i hi1 hi2 hfree
  have hC1 : ∀ i, 1 ≤ i → i < 2 ^ mo →
      upd t j (depthOf j) i ≠ occByte mo → i ≠ j / 2 →
      upd t j (depthOf j) i = canon (upd t j (depthOf j)) i := by
    intro i hi1 hi2 hfree higp
    have hpow : (2 : Nat) ^ (mo + 1) = 2 * 2 ^ mo := by rw [Nat.pow_succ]; ring
    by_cases hip : i = j
    · subst hip
      have hclv : 2 * i < 2 ^ (mo + 1) := by omega
      have hcrv : 2 * i + 1 < 2 ^ (mo + 1) := by omega
      have hsl := hInv.stale i hi1 (by omega) hjocc (2 * i) 1 (by omega) hclv (by omega)
      have hsr := hInv.stale i hi1 (by omega) hjocc (2 * i + 1) 1 (by omega) hcrv (by omega)
      rw [depthOf_double hi1] at hsl
      rw [depthOf_double1 hi1] at hsr
      have hcl2 : (2 * i : Nat) ≠ i := by omega
      have hcr2 : (2 * i + 1 : Nat) ≠ i := by omega
      rw [upd_self, canon, upd_ne hcl2, upd_ne hcr2, if_pos ⟨hsl, hsr⟩]
    · have hcl2 : 2 * i ≠ j := by
        intro he
        apply higp
        omega
      have hcr2 : 2 * i + 1 ≠ j := by
        intro he
        apply higp
        omega
      rw [upd_ne hip, canon_congr (upd_ne hcl2) (upd_ne hcr2)]
      exact hInv.canonical i hi1 hi2 (by
        rw [upd_ne hip] at hfree
        exact hfree)
  have hanc_lt : ∀ m, 1 ≤ m → j / 2 ^ m < j := by
    intro m hm
    have h2m : (2 : Nat) ≤ 2 ^ m := by
      calc (2 : Nat) = 2 ^ 1 := by norm_num
        _ ≤ 2 ^ m := Nat.pow_le_pow_right (by omega) (by omega)
    calc j / 2 ^ m ≤ j / 2 := Nat.div_le_div_left h2m (by omega)
      _ < j := by omega
  have hanc1 : ∀ m, 1 ≤ m → m ≤ depthOf j →
      upd t j (depthOf j) (j / 2 ^ m) ≠ occByte mo := by
    intro m hm1 hm2
    rw [upd_ne (by
      have := hanc_lt m hm1
      omega)]
    exact hanc0 m hm1 hm2
  have hop1 : Op.Deallocate = Op.Allocate →
      depthOf j + 1 ≤ upd t j (depthOf j) j ∨ upd t j (depthOf j) j = occByte mo :=
    fun h => Op.noConfusion h
  have hst1 : ∀ i, 1 ≤ i → i < 2 ^ (mo + 1) →
      upd t j (depthOf j) i = occByte mo →
      ∀ j2 m, 1 ≤ m → j2 < 2 ^ (mo + 1) → j2 / 2 ^ m = i →
      upd t j (depthOf j) j2 = depthOf j2 := by
    intro i hi1 hi2 hiocc j2 m hm1 hj2v hjdiv
    have hij : i ≠ j := by
      intro he
      subst he
      rw [upd_self] at hiocc
      omega
    rw [upd_ne hij] at hiocc
    have hj2j : j2 ≠ j := by
      intro he
      rw [he] at hjdiv
      have hmle : m ≤ depthOf j := by
        by_contra hmm
        push_neg at hmm
        have hz : j / 2 ^ m = 0 := anc_zero (by omega)
        rw [hz] at hjdiv
        omega
      exact hanc0 m hm1 hmle (by rw [hjdiv]; exact hiocc)
    rw [upd_ne hj2j]
    exact hInv.stale i hi1 hi2 hiocc j2 m hm1 hj2v hjdiv
  have hmp := mpAux_repair mo hmo Op.Deallocate j j (upd t j (depthOf j)) le_rfl hj1 hj2
    hB1 hL1 hC1 hanc1 hop1 hst1
  obtain ⟨hInv2, hloc2, hocc2⟩ := hmp
  have hmpe : modifyParents (upd t j (depthOf j)) j (depthOf j) Op.Deallocate
      = mpAux Op.Deallocate j (upd t j (depthOf j)) j (depthOf j) := rfl
  refine ⟨?_, ?_, ?_, ?_⟩
  · simp only [unsetMark, hjocc, occByte_land80 hmo]
    rw [if_neg (by norm_num)]
  · rw [hmpe]
    exact hInv2
  · intro k hk hkj
    rw [hmpe, hloc2 k hk]
    exact upd_ne hkj
  · intro k
    rw [hmpe, hocc2 k]
    by_cases hkj : k = j
    · subst hkj
      rw [upd_self]
      constructor
      · intro he
        omega
      · intro hand
        exact absurd rfl hand.2
    · rw [upd_ne hkj]
      exact ⟨fun h => ⟨h, hkj⟩, fun h => h.1⟩

/-! ### Reachable states: the master invariant -/

theorem Inv_congr (mo : Nat) {t s : Tree}
    (he : ∀ i, 1 ≤ i → i < 2 ^ (mo + 1) → s i = t i) (hInv : Inv mo t) : Inv mo s := by
  have hpow : (2 : Nat) ^ (mo + 1) = 2 * 2 ^ mo := by rw [Nat.pow_succ]; ring
  constructor
  · intro i h1 h2
    rw [he i h1 h2]
    exact hInv.bounds i h1 h2
  · intro i h1 h2 hfree
    rw [he i (by
      have : (1 : Nat) ≤ 2 ^ mo := Nat.one_le_two_pow
      omega) h2] at hfree ⊢
    exact hInv.leaves i h1 h2 hfree
  · intro i h1 h2 hfree
    have hcl : 2 * i < 2 ^ (mo + 1) := by omega
    have hcr : 2 * i + 1 < 2 ^ (mo + 1) := by omega
    rw [he i h1 (by omega)] at hfree ⊢
    rw [canon_congr (he (2 * i) (by omega) hcl) (he (2 * i + 1) (by omega) hcr)]
    exact hInv.canonical i h1 h2 hfree
  · intro i h1 h2 hiocc j m hm1 hj hdiv
    rw [he i h1 h2] at hiocc
    rw [he j (by
      rcases Nat.eq_zero_or_pos j with hj0 | hj0
      · rw [hj0, Nat.zero_div] at hdiv
        omega
      · exact hj0) hj]
    exact hInv.stale i h1 h2 hiocc j m hm1 hj hdiv

theorem initTree_no_occ (mo : Nat) (hmo : mo ≤ 126) :
    ∀ k, initTree mo k ≠ occByte mo := by
  intro k
  have hocc := occByte_large hmo
  rw [initTree_get]
  by_cases hk : k < 2 ^ (mo + 1)
  · rw [if_pos hk]
    by_cases hk0 : k = 0
    · rw [if_pos hk0]
      omega
    · rw [if_neg hk0]
      have := depthOf_le_of_lt (by omega : 1 ≤ k) hk
      omega
  · rw [if_neg hk]
    omega

theorem reach_master (mo : Nat) (hmo : mo ≤ 126) (t0 : Tree) (hInv0 : Inv mo t0) :
    ∀ {t : Tree} {L : List Nat}, Reach mo t0 t L →
      Inv mo t
      ∧ (∀ k, t k = occByte mo ↔ (t0 k = occByte mo ∨ k ∈ L))
      ∧ (∀ j, j ∈ L → 1 ≤ j ∧ j < 2 ^ (mo + 1) ∧ t0 j ≠ occByte mo)
      ∧ List.Pairwise unrel L
      ∧ (∀ j, j ∈ L → ∀ k, 1 ≤ k → k < 2 ^ (mo + 1) → t0 k = occByte mo → unrel j k) := by
  have hocc := occByte_large hmo
  intro t L hR
  induction hR with
  | init =>
    refine ⟨hInv0, by simp, by simp, List.Pairwise.nil, by simp⟩
  | @alloc t L r o hR2 ho hsm ih =>
    obtain ⟨hInv, hoiff, hmem, hpw, hbase⟩ := ih
    obtain ⟨d1, d2, d3, d4, hInv2, ht2j, hloc, hocc2, hun⟩ :=
      setMarkO_char mo hmo ho hInv hsm
    have hjfree : t r.2 ≠ occByte mo := by
      rw [d4]
      omega
    refine ⟨hInv2, ?_, ?_, ?_, ?_⟩
    · intro k
      rw [hocc2 k, hoiff k, List.mem_cons]
      tauto
    · intro j hj
      rcases List.mem_cons.mp hj with he | hm
      · subst he
        refine ⟨d1, d2, fun h0 => hjfree ((hoiff r.2).mpr (Or.inl h0))⟩
      · exact hmem j hm
    · rw [List.pairwise_cons]
      refine ⟨?_, hpw⟩
      intro b hb
      have hbocc : t b = occByte mo := (hoiff b).mpr (Or.inr hb)
      obtain ⟨hb1, hb2, -⟩ := hmem b hb
      obtain ⟨hu1, hu2⟩ := hun b hb1 hb2 hbocc
      have hne : r.2 ≠ b := by
        intro he
        rw [he] at d4
        omega
      refine ⟨fun m => ?_, fun m => ?_⟩
      · cases m with
        | zero => simpa using hne
        | succ n => exact hu1 (n + 1) (by omega)
      · cases m with
        | zero => simpa using fun he => hne he.symm
        | succ n => exact hu2 (n + 1) (by omega)
    · intro j hj k hk1 hk2 hk0
      rcases List.mem_cons.mp hj with he | hm
      · subst he
        have hkocc : t k = occByte mo := (hoiff k).mpr (Or.inl hk0)
        obtain ⟨hu1, hu2⟩ := hun k hk1 hk2 hkocc
        have hne : r.2 ≠ k := by
          intro he2
          rw [he2] at d4
          omega
        refine ⟨fun m => ?_, fun m => ?_⟩
        · cases m with
          | zero => simpa using hne
          | succ n => exact hu1 (n + 1) (by omega)
        · cases m with
          | zero => simpa using fun he2 => hne he2.symm
          | succ n => exact hu2 (n + 1) (by omega)
      · exact hbase j hm k hk1 hk2 hk0
  | @dealloc t L t2 j hR2 hjL hu ih =>
    obtain ⟨hInv, hoiff, hmem, hpw, hbase⟩ := ih
    obtain ⟨hj1, hj2, hj0⟩ := hmem j hjL
    have hjocc : t j = occByte mo := (hoiff j).mpr (Or.inr hjL)
    obtain ⟨hu_eq, hInv3, hloc3, hocc3⟩ := unsetMark_char mo hmo hInv hj1 hj2 hjocc
    have ht2 := Except.ok.inj (hu_eq.symm.trans hu)
    rw [ht2] at hInv3 hloc3 hocc3
    have hnd : L.Nodup := hpw.imp (fun h => by simpa using h.1 0)
    refine ⟨hInv3, ?_, ?_, ?_, ?_⟩
    · intro k
      rw [hocc3 k, hoiff k, hnd.mem_erase_iff]
      constructor
      · rintro ⟨h1 | h1, hne⟩
        · exact Or.inl h1
        · exact Or.inr ⟨hne, h1⟩
      · rintro (h1 | ⟨hne, h1⟩)
        · refine ⟨Or.inl h1, ?_⟩
          intro he
          rw [he] at h1
          exact hj0 h1
        · exact ⟨Or.inr h1, hne⟩
    · intro k hk
      exact hmem k (List.mem_of_mem_erase hk)
    · exact hpw.sublist (List.erase_sublist j L)
    · intro k hk
      exact hbase k (List.mem_of_mem_erase hk)

/-! ### The invariant pins down the whole tree from the occupied set -/

theorem inv_unique_aux (mo : Nat) (hmo : mo ≤ 126) (t s : Tree) (hIt : Inv mo t)
    (hIs : Inv mo s)
    (ho : ∀ k, 1 ≤ k → k < 2 ^ (mo + 1) → (t k = occByte mo ↔ s k = occByte mo)) :
    ∀ n k, 2 ^ (mo + 1) ≤ k + n → 1 ≤ k → k < 2 ^ (mo + 1) → t k = s k := by
  intro n
  induction n with
  | zero =>
    intro k h1 _ h3
    omega
  | succ n ih =>
    intro k h1 h2 h3
    by_cases hocck : t k = occByte mo
    · rw [hocck]
      exact ((ho k h2 h3).mp hocck).symm
    · have hsk : s k ≠ occByte mo := fun hs => hocck ((ho k h2 h3).mpr hs)
      rcases Nat.lt_or_ge k (2 ^ mo) with hint | hleaf
      · have hpow : (2 : Nat) ^ (mo + 1) = 2 * 2 ^ mo := by rw [Nat.pow_succ]; ring
        have hcl := ih (2 * k) (by omega) (by omega) (by omega)
        have hcr := ih (2 * k + 1) (by omega) (by omega) (by omega)
        rw [hIt.canonical k h2 hint hocck, hIs.canonical k h2 hint hsk,
          canon, canon, hcl, hcr]
      · rw [hIt.leaves k hleaf h3 hocck, hIs.leaves k hleaf h3 hsk]

theorem inv_unique (mo : Nat) (hmo : mo ≤ 126) (t s : Tree) (hIt : Inv mo t)
    (hIs : Inv mo s)
    (ho : ∀ k, 1 ≤ k → k < 2 ^ (mo + 1) → (t k = occByte mo ↔ s k = occByte mo)) :
    ∀ k, 1 ≤ k → k < 2 ^ (mo + 1) → t k = s k := by
  intro k h1 h2
  exact inv_unique_aux mo hmo t s hIt hIs ho (2 ^ (mo + 1)) k (by omega) h1 h2

/-! ### Dyadic chunk geometry -/

theorem nodeOffset_eq {a j : Nat} (h1 : 1 ≤ j) (hd : depthOf j ≤ a) :
    nodeOffset (2 ^ a) j = 2 ^ (a - depthOf j) * (j - 2 ^ depthOf j)
    ∧ nodeLen (2 ^ a) j = 2 ^ (a - depthOf j) := by
  have hlo := depthOf_lower h1
  have hhi := depthOf_upper j
  have h2d : (2 : Nat) ^ (depthOf j + 1) = 2 * 2 ^ depthOf j := by rw [Nat.pow_succ]; ring
  have hdiv : 2 ^ a / 2 ^ depthOf j = 2 ^ (a - depthOf j) := Nat.pow_div hd (by norm_num)
  have hmask : j &&& (2 ^ depthOf j - 1) = j - 2 ^ depthOf j := by
    rw [Nat.and_pow_two_sub_one_eq_mod]
    rw [Nat.mod_eq_sub_mod hlo]
    exact Nat.mod_eq_of_lt (by omega)
  rw [nodeOffset, nodeLen, Nat.one_shiftLeft, hdiv, hmask]
  exact ⟨rfl, rfl⟩

theorem node_in_arena {a j : Nat} (h1 : 1 ≤ j) (hd : depthOf j ≤ a) :
    nodeOffset (2 ^ a) j + nodeLen (2 ^ a) j ≤ 2 ^ a := by
  obtain ⟨ho, hl⟩ := nodeOffset_eq h1 hd
  rw [ho, hl]
  have hlo := depthOf_lower h1
  have hhi := depthOf_upper j
  have h2d : (2 : Nat) ^ (depthOf j + 1) = 2 * 2 ^ depthOf j := by rw [Nat.pow_succ]; ring
  calc 2 ^ (a - depthOf j) * (j - 2 ^ depthOf j) + 2 ^ (a - depthOf j)
      = 2 ^ (a - depthOf j) * (j - 2 ^ depthOf j + 1) := by ring
    _ ≤ 2 ^ (a - depthOf j) * 2 ^ depthOf j := Nat.mul_le_mul_left _ (by omega)
    _ = 2 ^ a := by
        rw [← Nat.pow_add]
        congr 1
        omega

theorem range_parent {a j : Nat} (h2 : 2 ≤ j) (hd : depthOf j ≤ a) :
    nodeOffset (2 ^ a) (j / 2) ≤ nodeOffset (2 ^ a) j
    ∧ nodeOffset (2 ^ a) j + nodeLen (2 ^ a) j
      ≤ nodeOffset (2 ^ a) (j / 2) + nodeLen (2 ^ a) (j / 2) := by
  have hd1 := depthOf_pos h2
  have hdp := depthOf_half h2
  obtain ⟨hoj, hlj⟩ := nodeOffset_eq (by omega) hd
  obtain ⟨hop, hlp⟩ := nodeOffset_eq (show 1 ≤ j / 2 by omega)
    (show depthOf (j / 2) ≤ a by omega)
  have hplo := depthOf_lower (show 1 ≤ j / 2 by omega)
  have hjlo := depthOf_lower (show 1 ≤ j by omega)
  have hXe : (2 : Nat) ^ (a - depthOf (j / 2)) = 2 * 2 ^ (a - depthOf j) := by
    rw [show a - depthOf (j / 2) = (a - depthOf j) + 1 by omega, Nat.pow_succ]
    ring
  have h2d : (2 : Nat) ^ depthOf j = 2 * 2 ^ depthOf (j / 2) := by
    rw [show depthOf j = depthOf (j / 2) + 1 by omega, Nat.pow_succ]
    ring
  have h2p : 2 * (j / 2 - 2 ^ depthOf (j / 2)) = 2 * (j / 2) - 2 ^ depthOf j := by omega
  rw [hoj, hlj, hop, hlp, hXe]
  constructor
  · calc 2 * 2 ^ (a - depthOf j) * (j / 2 - 2 ^ depthOf (j / 2))
        = 2 ^ (a - depthOf j) * (2 * (j / 2 - 2 ^ depthOf (j / 2))) := by ring
      _ = 2 ^ (a - depthOf j) * (2 * (j / 2) - 2 ^ depthOf j) := by rw [h2p]
      _ ≤ 2 ^ (a - depthOf j) * (j - 2 ^ depthOf j) := Nat.mul_le_mul_left _ (by omega)
  · calc 2 ^ (a - depthOf j) * (j - 2 ^ depthOf j) + 2 ^ (a - depthOf j)
        = 2 ^ (a - depthOf j) * (j - 2 ^ depthOf j + 1) := by ring
      _ ≤ 2 ^ (a - depthOf j) * (2 * (j / 2) - 2 ^ depthOf j + 2) :=
          Nat.mul_le_mul_left _ (by omega)
      _ = 2 ^ (a - depthOf j) * (2 * (j / 2 - 2 ^ depthOf (j / 2)) + 2) := by
          rw [h2p]
      _ = 2 * 2 ^ (a - depthOf j) * (j / 2 - 2 ^ depthOf (j / 2))
          + 2 * 2 ^ (a - depthOf j) := by ring

theorem range_anc {a j : Nat} (h1 : 1 ≤ j) (hd : depthOf j ≤ a) :
    ∀ m, m ≤ depthOf j →
      nodeOffset (2 ^ a) (j / 2 ^ m) ≤ nodeOffset (2 ^ a) j
      ∧ nodeOffset (2 ^ a) j + nodeLen (2 ^ a) j
        ≤ nodeOffset (2 ^ a) (j / 2 ^ m) + nodeLen (2 ^ a) (j / 2 ^ m) := by
  intro m
  induction m with
  | zero =>
    intro _
    simp
  | succ n ih =>
    intro hm
    have hq1 : 1 ≤ j / 2 ^ n := anc_pos h1 (by omega)
    have hqd : depthOf (j / 2 ^ n) = depthOf j - n := depthOf_div_pow h1 n (by omega)
    have hq2 : 2 ≤ j / 2 ^ n := by
      have := depthOf_lower hq1
      have h2x : (2 : Nat) ≤ 2 ^ depthOf (j / 2 ^ n) := by
        calc (2 : Nat) = 2 ^ 1 := by norm_num
          _ ≤ 2 ^ depthOf (j / 2 ^ n) := Nat.pow_le_pow_right (by omega) (by omega)
      omega
    have hp := @range_parent a (j / 2 ^ n) hq2 (by omega)
    rw [div_pow_succ_eq] at hp
    have hi := ih (by omega)
    omega

theorem same_depth_disjoint {a i j : Nat} (h1i : 1 ≤ i) (h1j : 1 ≤ j)
    (hde : depthOf i = depthOf j) (hd : depthOf j ≤ a) (hne : i ≠ j) :
    nodeOffset (2 ^ a) i + nodeLen (2 ^ a) i ≤ nodeOffset (2 ^ a) j
    ∨ nodeOffset (2 ^ a) j + nodeLen (2 ^ a) j ≤ nodeOffset (2 ^ a) i := by
  obtain ⟨hoi, hli⟩ := nodeOffset_eq h1i (show depthOf i ≤ a by omega)
  obtain ⟨hoj, hlj⟩ := nodeOffset_eq h1j hd
  have hloi := depthOf_lower h1i
  have hloj := depthOf_lower h1j
  rw [hoi, hli, hoj, hlj, hde]
  rcases Nat.lt_or_ge i j with hij | hij
  · left
    calc 2 ^ (a - depthOf j) * (i - 2 ^ depthOf j) + 2 ^ (a - depthOf j)
        = 2 ^ (a - depthOf j) * (i - 2 ^ depthOf j + 1) := by ring
      _ ≤ 2 ^ (a - depthOf j) * (j - 2 ^ depthOf j) :=
          Nat.mul_le_mul_left _ (by

            rw [hde] at hloi
            omega)
  · right
    have hji : j < i := by omega
    calc 2 ^ (a - depthOf j) * (j - 2 ^ depthOf j) + 2 ^ (a - depthOf j)
        = 2 ^ (a - depthOf j) * (j - 2 ^ depthOf j + 1) := by ring
      _ ≤ 2 ^ (a - depthOf j) * (i - 2 ^ depthOf j) :=
          Nat.mul_le_mul_left _ (by
            rw [hde] at hloi
            omega)

theorem dyadic_disjoint_aux {a i j : Nat} (h1i : 1 ≤ i) (h1j : 1 ≤ j)
    (hdi : depthOf i ≤ a) (hdj : depthOf j ≤ a) (hdd : depthOf i ≤ depthOf j)
    (hnp : ∀ m, j / 2 ^ m ≠ i) :
    nodeOffset (2 ^ a) i + nodeLen (2 ^ a) i ≤ nodeOffset (2 ^ a) j
    ∨ nodeOffset (2 ^ a) j + nodeLen (2 ^ a) j ≤ nodeOffset (2 ^ a) i := by
  have hp1 : 1 ≤ j / 2 ^ (depthOf j - depthOf i) := anc_pos h1j (by omega)
  have hpd : depthOf (j / 2 ^ (depthOf j - depthOf i)) = depthOf i := by
    rw [depthOf_div_pow h1j _ (by omega)]
    omega
  have hpne : j / 2 ^ (depthOf j - depthOf i) ≠ i := hnp _
  have hrj := range_anc h1j hdj (depthOf j - depthOf i) (by omega)
  have hdisj := same_depth_disjoint hp1 h1i hpd hdi hpne
  rcases hdisj with hc | hc
  · right
    omega
  · left
    omega

theorem unrel_disjoint {a i j : Nat} (h1i : 1 ≤ i) (h1j : 1 ≤ j)
    (hdi : depthOf i ≤ a) (hdj : depthOf j ≤ a) (hu : unrel i j) :
    nodeOffset (2 ^ a) i + nodeLen (2 ^ a) i ≤ nodeOffset (2 ^ a) j
    ∨ nodeOffset (2 ^ a) j + nodeLen (2 ^ a) j ≤ nodeOffset (2 ^ a) i := by
  rcases Nat.le_total (depthOf i) (depthOf j) with hdd | hdd
  · exact dyadic_disjoint_aux h1i h1j hdi hdj hdd hu.2
  · exact (dyadic_disjoint_aux h1j h1i hdj hdi hdd hu.1).symm

/-! ### Unfolding the layout-level wrappers -/

theorem allocOp_ok_inv {M A : Nat} {t : Tree} {size align : Nat} {p : Tree × Nat}
    (h : allocOp M A t size align = .ok p) :
    ∃ bs o r, buddySizeOf M size align = .ok bs ∧ orderOf bs A = .ok o
      ∧ setMarkO (orderOfD M A) t o = .ok r
      ∧ p = (r.1, A / (1 <<< o) * (r.2 &&& ((1 <<< o) - 1))) := by
  cases hbs : buddySizeOf M size align with
  | error e =>
    simp only [allocOp, hbs] at h
    exact absurd h (fun he => Except.noConfusion he)
  | ok bs =>
    cases ho : orderOf bs A with
    | error e =>
      simp only [allocOp, hbs, ho] at h
      exact absurd h (fun he => Except.noConfusion he)
    | ok o =>
      cases hs : setMarkO (orderOfD M A) t o with
      | error e =>
        simp only [allocOp, hbs, ho, hs] at h
        exact absurd h (fun he => Except.noConfusion he)
      | ok r =>
        simp only [allocOp, hbs, ho, hs] at h
        exact ⟨bs, o, r, rfl, ho, hs, ((Except.ok.inj h).symm)⟩

theorem deallocOp_eq {M A : Nat} {t : Tree} {off size align bs o : Nat}
    (hbs : buddySizeOf M size align = .ok bs) (ho : orderOf bs A = .ok o) :
    deallocOp M A t off size align
      = unsetMark t o ((1 <<< o) + off * (1 <<< o) / A) := by
  simp only [deallocOp, hbs, ho]

theorem orderOfD_pow2 {b a : Nat} (hb : b ≤ 63) (ha : a ≤ 63) (hba : b ≤ a) :
    orderOfD (2 ^ b) (2 ^ a) = a - b := by
  unfold orderOfD
  rw [orderOf_pow2 b a hb ha, if_neg (by omega)]

theorem orderOf_pow_ok {bp a o : Nat} (hb : bp ≤ 63) (ha : a ≤ 63)
    (h : orderOf (2 ^ bp) (2 ^ a) = .ok o) : bp ≤ a ∧ o = a - bp := by
  rw [orderOf_pow2 bp a hb ha] at h
  by_cases hba : bp > a
  · rw [if_pos hba] at h
    exact absurd h (fun he => Except.noConfusion he)
  · rw [if_neg hba] at h
    exact ⟨by omega, (Except.ok.inj h).symm⟩

theorem buddySizeOf_pow {mm size align bs : Nat} (hmm : 3 ≤ mm) (hmm63 : mm ≤ 63)
    (h : buddySizeOf (2 ^ mm) size align = .ok bs) :
    ∃ bp, bs = 2 ^ bp ∧ mm ≤ bp ∧ bp ≤ 62 ∧ align ≤ bs ∧ align ≤ MAX_SUPPORTED_ALIGN := by
  rw [buddySizeOf_eq] at h
  by_cases h1 : max size (max align (2 ^ mm)) > wordMax / MIN_BUDDY_NB + 1
  · rw [if_pos h1] at h
    exact absurd h (fun he => Except.noConfusion he)
  rw [if_neg h1] at h
  by_cases h2 : align > MAX_SUPPORTED_ALIGN
  · rw [if_pos h2] at h
    exact absurd h (fun he => Except.noConfusion he)
  rw [if_neg h2] at h
  have hbs := Except.ok.inj h
  push_neg at h1 h2
  have hcap : wordMax / MIN_BUDDY_NB + 1 = 2 ^ 62 := by decide
  have hsle : max size (max align (2 ^ mm)) ≤ 2 ^ 62 := by omega
  have hspos : 0 < max size (max align (2 ^ mm)) := by
    calc (0 : Nat) < 2 ^ mm := Nat.pos_pow_of_pos _ (by norm_num)
      _ ≤ max align (2 ^ mm) := le_max_right align (2 ^ mm)
      _ ≤ max size (max align (2 ^ mm)) := le_max_right size (max align (2 ^ mm))
  obtain ⟨hge, ⟨k, hk⟩, hmin⟩ := round_up_2_spec _ hspos (by
    have h63 : (2 : Nat) ^ 62 ≤ 2 ^ 63 := by norm_num
    omega)
  have hb2 : bs = 2 ^ k := by rw [← hbs, hk]
  have hmmle : (2 : Nat) ^ mm ≤ max size (max align (2 ^ mm)) :=
    le_max_of_le_right (le_max_right align (2 ^ mm))
  have hkmm : mm ≤ k := by
    have hsg : (2 : Nat) ^ mm ≤ 2 ^ k := by
      calc (2 : Nat) ^ mm ≤ max size (max align (2 ^ mm)) := hmmle
        _ ≤ round_up_2 (max size (max align (2 ^ mm))) := hge
        _ = 2 ^ k := hk
    exact (Nat.pow_le_pow_iff_right (by norm_num)).mp hsg
  have hk62 : k ≤ 62 := by
    have h62 := hmin 62 hsle
    rw [hk] at h62
    exact (Nat.pow_le_pow_iff_right (by norm_num)).mp h62
  refine ⟨k, hb2, hkmm, hk62, ?_, h2⟩
  calc align ≤ max size (max align (2 ^ mm)) :=
        le_max_of_le_right (le_max_left align (2 ^ mm))
    _ ≤ round_up_2 (max size (max align (2 ^ mm))) := hge
    _ = bs := hbs

theorem offset_roundtrip {a o j : Nat} (ho : o ≤ a) (hj1 : 2 ^ o ≤ j)
    (hj2 : j < 2 ^ (o + 1)) :
    (1 <<< o) + 2 ^ a / (1 <<< o) * (j &&& ((1 <<< o) - 1)) * (1 <<< o) / 2 ^ a = j := by
  have h2d : (2 : Nat) ^ (o + 1) = 2 * 2 ^ o := by rw [Nat.pow_succ]; ring
  rw [Nat.one_shiftLeft, Nat.and_pow_two_sub_one_eq_mod, Nat.pow_div ho (by norm_num)]
  have hmod : j % 2 ^ o = j - 2 ^ o := by
    rw [Nat.mod_eq_sub_mod hj1]
    exact Nat.mod_eq_of_lt (by omega)
  rw [hmod]
  have he : 2 ^ (a - o) * (j - 2 ^ o) * 2 ^ o = (j - 2 ^ o) * 2 ^ a := by
    calc 2 ^ (a - o) * (j - 2 ^ o) * 2 ^ o
        = (j - 2 ^ o) * (2 ^ (a - o) * 2 ^ o) := by ring
      _ = (j - 2 ^ o) * 2 ^ a := by
          rw [← Nat.pow_add]
          congr 2
          omega
  rw [he, Nat.mul_div_cancel _ (Nat.pos_pow_of_pos _ (by norm_num))]
  omega

/-! ### The self-hosted base state (write_metadata with a carved-out
metadata slice) -/

theorem max_pow2 (p q : Nat) : max (2 ^ p) (2 ^ q) = 2 ^ max p q := by
  rcases Nat.le_total p q with h | h
  · rw [Nat.max_eq_right (Nat.pow_le_pow_right (by norm_num) h), Nat.max_eq_right h]
  · rw [Nat.max_eq_left (Nat.pow_le_pow_right (by norm_num) h), Nat.max_eq_left h]

theorem min_pow2 (p q : Nat) : min (2 ^ p) (2 ^ q) = 2 ^ min p q := by
  rcases Nat.le_total p q with h | h
  · rw [Nat.min_eq_left (Nat.pow_le_pow_right (by norm_num) h), Nat.min_eq_left h]
  · rw [Nat.min_eq_right (Nat.pow_le_pow_right (by norm_num) h), Nat.min_eq_right h]

theorem depthOf_pow (k : Nat) : depthOf (2 ^ k) = k :=
  depthOf_eq_of le_rfl (by
    have : (2 : Nat) ^ (k + 1) = 2 * 2 ^ k := by rw [Nat.pow_succ]; ring
    have h0 : (0 : Nat) < 2 ^ k := Nat.pos_pow_of_pos _ (by norm_num)
    omega)

theorem descendGo_fresh (t : Tree) (o : Nat)
    (hv : ∀ i, 1 ≤ i → i < 2 ^ (o + 1) → t i = depthOf i) :
    ∀ s, s ≤ o → descendGo t o s (2 ^ (o - s)) = 2 ^ o := by
  intro s
  induction s with
  | zero =>
    intro _
    show 2 ^ (o - 0) = 2 ^ o
    rw [Nat.sub_zero]
  | succ n ih =>
    intro hs
    have he : 2 * 2 ^ (o - (n + 1)) = 2 ^ (o - n) := by
      rw [← Nat.pow_succ']
      congr 1
      omega
    have hlt : (2 : Nat) ^ (o - n) < 2 ^ (o + 1) :=
      Nat.pow_lt_pow_right (by norm_num) (by omega)
    have hval : t (2 * 2 ^ (o - (n + 1))) ≤ o := by
      rw [he, hv (2 ^ (o - n)) Nat.one_le_two_pow hlt, depthOf_pow]
      omega
    show descendGo t o n (if t (2 * 2 ^ (o - (n + 1))) ≤ o then 2 * 2 ^ (o - (n + 1))
      else 2 * 2 ^ (o - (n + 1)) + 1) = 2 ^ o
    rw [if_pos hval, he]
    exact ih (by omega)

theorem descend_fresh (t : Tree) (o : Nat)
    (hv : ∀ i, 1 ≤ i → i < 2 ^ (o + 1) → t i = depthOf i) :
    descend t o = 2 ^ o := by
  have h := descendGo_fresh t o hv o le_rfl
  rw [Nat.sub_self] at h
  unfold descend
  simpa using h

theorem mlenOf_eq (mm a : Nat) (hma : mm ≤ a) :
    mlenOf mm a = 2 ^ max ((a - mm) + 1) mm := by
  rw [mlenOf, Nat.pow_div hma (by norm_num)]
  rw [show 2 ^ (a - mm) * 2 = 2 ^ ((a - mm) + 1) by rw [Nat.pow_succ]]
  exact max_pow2 _ _

theorem c4Base_spec (mm a : Nat) (hmm : 3 ≤ mm) (ha2 : mm + 2 ≤ a) (ha : a ≤ 63) :
    Inv (a - mm) (c4Base mm a)
    ∧ (∀ k, c4Base mm a k = occByte (a - mm) ↔ k = 2 ^ (a - max ((a - mm) + 1) mm)) := by
  have hmo126 : a - mm ≤ 126 := by omega
  have hocc := occByte_large hmo126
  have hmoD : orderOfD (2 ^ mm) (2 ^ a) = a - mm :=
    orderOfD_pow2 (by omega) (by omega) (by omega)
  have hbn : ((1 : Nat) <<< (a - mm)) * 2 = 2 ^ ((a - mm) + 1) := by
    rw [Nat.one_shiftLeft, Nat.pow_succ]
  have hmaxp : max (2 ^ ((a - mm) + 1)) (2 ^ mm) = 2 ^ max ((a - mm) + 1) mm :=
    max_pow2 _ _
  have ho0 : orderOfD (2 ^ max ((a - mm) + 1) mm) (2 ^ a) = a - max ((a - mm) + 1) mm :=
    orderOfD_pow2 (by omega) (by omega) (by omega)
  have ho0mo : a - max ((a - mm) + 1) mm ≤ a - mm := by omega
  have hwm : c4Base mm a
      = upd (match setMarkO (a - mm) (initLoop ((1 <<< (a - mm)) * 2) staticNewMetadata 0 2 0)
              (a - max ((a - mm) + 1) mm) with
          | .ok r => r.1
          | .error _ => initLoop ((1 <<< (a - mm)) * 2) staticNewMetadata 0 2 0) 0 0xff := by
    rw [c4Base, writeMetadata, hmoD]
    rw [if_pos rfl, hbn, hmaxp, ho0]
  have hfget := freshTree_get (a - mm) staticNewMetadata
  have ht1v : ∀ i, 1 ≤ i → i < 2 ^ ((a - max ((a - mm) + 1) mm) + 1) →
      initLoop ((1 <<< (a - mm)) * 2) staticNewMetadata 0 2 0 i = depthOf i := by
    intro i h1 h2
    have hle : (2 : Nat) ^ ((a - max ((a - mm) + 1) mm) + 1) ≤ 2 ^ ((a - mm) + 1) :=
      Nat.pow_le_pow_right (by norm_num) (by omega)
    rw [hfget i, if_pos (by omega), if_neg (by omega)]
  have hdesc : descend (initLoop ((1 <<< (a - mm)) * 2) staticNewMetadata 0 2 0)
      (a - max ((a - mm) + 1) mm)
      = 2 ^ (a - max ((a - mm) + 1) mm) :=
    descend_fresh _ _ ht1v
  have ht1one : initLoop ((1 <<< (a - mm)) * 2) staticNewMetadata 0 2 0 1 = 0 := by
    rw [hfget 1, if_pos (by
      have : (2 : Nat) ^ ((a - mm) + 1) ≥ 2 ^ 1 := Nat.pow_le_pow_right (by norm_num) (by omega)
      omega), if_neg (by omega)]
    rfl
  have hsm1 : setMarkO (a - mm) (initLoop ((1 <<< (a - mm)) * 2) staticNewMetadata 0 2 0)
      (a - max ((a - mm) + 1) mm)
      = .ok (modifyParents
          (upd (initLoop ((1 <<< (a - mm)) * 2) staticNewMetadata 0 2 0)
            (2 ^ (a - max ((a - mm) + 1) mm)) (occByte (a - mm)))
          (2 ^ (a - max ((a - mm) + 1) mm)) (a - max ((a - mm) + 1) mm) .Allocate,
          2 ^ (a - max ((a - mm) + 1) mm)) := by
    rw [setMarkO, if_neg (by
      rw [ht1one]
      omega), hdesc]
  obtain ⟨d1, d2, d3, d4, hInv2, ht2j, hloc, hocc2, hun⟩ :=
    setMarkO_char (a - mm) hmo126 ho0mo (Inv_fresh (a - mm) hmo126 staticNewMetadata) hsm1
  have hfree1 : ∀ k, initLoop ((1 <<< (a - mm)) * 2) staticNewMetadata 0 2 0 k
      ≠ occByte (a - mm) := by
    intro k
    rw [hfget k]
    by_cases hk : k < 2 ^ ((a - mm) + 1)
    · rw [if_pos hk]
      by_cases hk0 : k = 0
      · rw [if_pos hk0]
        omega
      · rw [if_neg hk0]
        have := depthOf_le_of_lt (by omega : 1 ≤ k) hk
        omega
    · rw [if_neg hk]
      have hk2 : k ≠ 0 := by
        have : (2 : Nat) ^ ((a - mm) + 1) ≥ 2 ^ 1 := Nat.pow_le_pow_right (by norm_num) (by omega)
        omega
      rw [staticNewMetadata, upd_ne hk2]
      omega
  have hocc255 : occByte (a - mm) ≠ 0xff := by
    rw [occByte_eq hmo126]
    omega
  rw [hwm, hsm1]
  constructor
  · refine Inv_congr (a - mm) ?_ hInv2
    intro i h1 _
    exact upd_ne (by omega)
  · intro k
    by_cases hk0 : k = 0
    · subst hk0
      rw [upd_self]
      constructor
      · intro he
        exact absurd he.symm hocc255
      · intro he
        exfalso
        have : (0 : Nat) < 2 ^ (a - max ((a - mm) + 1) mm) :=
          Nat.pos_pow_of_pos _ (by norm_num)
        omega
    · rw [upd_ne hk0, hocc2 k]
      constructor
      · rintro (h1 | h1)
        · exact absurd h1 (hfree1 k)
        · exact h1
      · intro h1
        exact Or.inr h1

theorem innerAlloc_ok_inv {M A mlen : Nat} {sh : Bool} {t : Tree} {size align : Nat}
    {p : Tree × Nat} (h : innerAlloc M A mlen sh t size align = .ok p) :
    ∃ bs o r, buddySizeOf M size align = .ok bs ∧ orderOf bs A = .ok o
      ∧ setMarkO (orderOfD M A) t o = .ok r
      ∧ p = (r.1, if sh then A / (1 <<< o) * (r.2 &&& ((1 <<< o) - 1)) - mlen
                  else A / (1 <<< o) * (r.2 &&& ((1 <<< o) - 1))) := by
  cases hbs : buddySizeOf M size align with
  | error e =>
    simp only [innerAlloc, hbs] at h
    exact absurd h (fun he => Except.noConfusion he)
  | ok bs =>
    cases ho : orderOf bs A with
    | error e =>
      simp only [innerAlloc, hbs, ho] at h
      exact absurd h (fun he => Except.noConfusion he)
    | ok o =>
      cases hs : setMarkO (orderOfD M A) t o with
      | error e =>
        simp only [innerAlloc, hbs, ho, hs] at h
        exact absurd h (fun he => Except.noConfusion he)
      | ok r =>
        simp only [innerAlloc, hbs, ho, hs] at h
        exact ⟨bs, o, r, rfl, ho, hs, ((Except.ok.inj h).symm)⟩

/-! ### Claim C3, as frozen: a counterexample on an arbitrary tree state -/

/-- C3 as frozen quantifies over every state of the metadata tree; on the
(unreachable) state exTreeC3 the allocation of a (16, 1) layout in a 32-byte
arena with M = 8 succeeds, the immediate deallocation of the returned
pointer with the same layout succeeds, and yet the root byte changed from
0 to 1. -/
theorem c3_counterexample :
    isOkE (allocOp 8 32 exTreeC3 16 1) = true
  ∧ isOkE (deallocOp 8 32 (allocRun 8 32 exTreeC3 16 1).1
      (allocRun 8 32 exTreeC3 16 1).2 16 1) = true
  ∧ deallocRun 8 32 (allocRun 8 32 exTreeC3 16 1).1
      (allocRun 8 32 exTreeC3 16 1).2 16 1 1 ≠ exTreeC3 1 := by decide

/-! ### Claim theorems: the parent-minimum invariant (C1) and range
disjointness (C2) -/

/-- C1: after every allocate or deallocate operation, starting from a
freshly initialised metadata tree, every internal free node i (occupied
bit 0x80 clear) satisfies the parent-minimum law: node i equals
min(node[2i] & 0x7f, node[2i+1] & 0x7f) on its low bits, except when both
children carry depth(i)+1, in which case node i equals depth(i): the
early-stopping modify_parents loop preserves the invariant across every
operation. -/
theorem c1_parent_min (mo : Nat) (hmo : mo ≤ 126) (t : Tree) (L : List Nat)
    (hR : Reach mo (initTree mo) t L) :
    ∀ i, 1 ≤ i → i < 2 ^ mo → t i &&& 0x80 = 0 →
      (if t (2 * i) = depthOf i + 1 ∧ t (2 * i + 1) = depthOf i + 1
       then t i = depthOf i
       else t i &&& 0x7f = min (t (2 * i) &&& 0x7f) (t (2 * i + 1) &&& 0x7f)) := by
  obtain ⟨hInv, -, -, -, -⟩ :=
    reach_master mo hmo (initTree mo) (Inv_initTree mo hmo) hR
  intro i h1 h2 hfree
  have hocc := occByte_large hmo
  have hne : t i ≠ occByte mo := by
    intro he
    rw [he, occByte_land80 hmo] at hfree
    norm_num at hfree
  have hcan := hInv.canonical i h1 h2 hne
  rw [canon] at hcan
  by_cases hc : t (2 * i) = depthOf i + 1 ∧ t (2 * i + 1) = depthOf i + 1
  · rw [if_pos hc]
    rw [if_pos hc] at hcan
    exact hcan
  · rw [if_neg hc]
    rw [if_neg hc] at hcan
    have hml : t (2 * i) &&& 0x7f ≤ 0x7f := Nat.and_le_right
    have hmr : t (2 * i + 1) &&& 0x7f ≤ 0x7f := Nat.and_le_right
    rw [hcan, land127_of_le (by omega)]

/-- C1 witness: the state after one order-2 allocation on the fresh
four-leaf tree, checked at the root node. -/
theorem c1_witness :
    (if exReach1.1 (2 * 1) = depthOf 1 + 1 ∧ exReach1.1 (2 * 1 + 1) = depthOf 1 + 1
     then exReach1.1 1 = depthOf 1
     else exReach1.1 1 &&& 0x7f
       = min (exReach1.1 (2 * 1) &&& 0x7f) (exReach1.1 (2 * 1 + 1) &&& 0x7f)) :=
  c1_parent_min 2 (by norm_num) exReach1.1 [exReach1.2]
    (Reach.alloc Reach.init (by norm_num) rfl) 1 (by norm_num) (by norm_num) (by decide)

/-- C2: in every state reachable from a freshly initialised tree, the byte
ranges of the live allocations are sub-ranges of the arena of 2 ^ a bytes
and are pairwise disjoint. -/
theorem c2_disjoint (mo a : Nat) (hmo : mo ≤ a) (ha : a ≤ 63)
    {t : Tree} {L : List Nat} (hR : Reach mo (initTree mo) t L) :
    (∀ j ∈ L, nodeOffset (2 ^ a) j + nodeLen (2 ^ a) j ≤ 2 ^ a)
    ∧ List.Pairwise (fun i j =>
        nodeOffset (2 ^ a) i + nodeLen (2 ^ a) i ≤ nodeOffset (2 ^ a) j
        ∨ nodeOffset (2 ^ a) j + nodeLen (2 ^ a) j ≤ nodeOffset (2 ^ a) i) L := by
  have hmo126 : mo ≤ 126 := by omega
  obtain ⟨-, -, hmem, hpw, -⟩ :=
    reach_master mo hmo126 (initTree mo) (Inv_initTree mo hmo126) hR
  constructor
  · intro j hj
    obtain ⟨h1, h2, -⟩ := hmem j hj
    exact node_in_arena h1 (by
      have := depthOf_le_of_lt h1 h2
      omega)
  · refine List.Pairwise.imp_of_mem ?_ hpw
    intro x y hx hy hxy
    obtain ⟨hx1, hx2, -⟩ := hmem x hx
    obtain ⟨hy1, hy2, -⟩ := hmem y hy
    have hdx := depthOf_le_of_lt hx1 hx2
    have hdy := depthOf_le_of_lt hy1 hy2
    exact unrel_disjoint hx1 hy1 (by omega) (by omega) hxy

/-- C2 witness: two live order-2 allocations on the fresh four-leaf tree in
a 32-byte arena; the second chunk sits inside the arena and the two chunks
do not overlap. -/
theorem c2_witness :
    nodeOffset (2 ^ 5) exReach2.2 + nodeLen (2 ^ 5) exReach2.2 ≤ 2 ^ 5
    ∧ (nodeOffset (2 ^ 5) exReach2.2 + nodeLen (2 ^ 5) exReach2.2
        ≤ nodeOffset (2 ^ 5) exReach1.2
      ∨ nodeOffset (2 ^ 5) exReach1.2 + nodeLen (2 ^ 5) exReach1.2
        ≤ nodeOffset (2 ^ 5) exReach2.2) := by
  have h1 : setMarkO 2 (initTree 2) 2 = .ok exReach1 := rfl
  have hr1 : Reach 2 (initTree 2) exReach1.1 [exReach1.2] :=
    Reach.alloc Reach.init (by norm_num) h1
  have h2 : setMarkO 2 exReach1.1 2 = .ok exReach2 := rfl
  have hr2 : Reach 2 (initTree 2) exReach2.1 (exReach2.2 :: [exReach1.2]) :=
    Reach.alloc hr1 (by norm_num) h2
  have h := c2_disjoint 2 5 (by norm_num) (by norm_num) hr2
  exact ⟨h.1 exReach2.2 (by simp), (List.pairwise_cons.mp h.2).1 exReach1.2 (by simp)⟩

/-! ### Claim C3, amended: alloc then dealloc restores every reachable tree -/

/-- C3 (amended to reachable states): in an arena of 2 ^ a bytes with
minimal cell 2 ^ mm, for every metadata tree reachable from the freshly
initialised tree and every layout for which allocate succeeds, deallocating
the returned offset with the same layout succeeds and returns the metadata
tree to exactly its previous state. -/
theorem c3_alloc_dealloc (mm a : Nat) (hmm : 3 ≤ mm) (hma : mm ≤ a) (ha : a ≤ 63)
    {t : Tree} {L : List Nat} (hR : Reach (a - mm) (initTree (a - mm)) t L)
    {size align : Nat} {t2 : Tree} {off : Nat}
    (hall : allocOp (2 ^ mm) (2 ^ a) t size align = .ok (t2, off)) :
    deallocOp (2 ^ mm) (2 ^ a) t2 off size align = .ok t := by
  have hmo126 : a - mm ≤ 126 := by omega
  have hocc := occByte_large hmo126
  obtain ⟨bs, o, r, hbsv, hov, hsv, hpair⟩ := allocOp_ok_inv hall
  obtain ⟨bp, hbp, hbpmm, hbp62, -, -⟩ := buddySizeOf_pow hmm (by omega) hbsv
  subst hbp
  obtain ⟨hbpa, hoo⟩ := orderOf_pow_ok (by omega) (by omega) hov
  subst hoo
  have hmoD : orderOfD (2 ^ mm) (2 ^ a) = a - mm := orderOfD_pow2 (by omega) (by omega) hma
  rw [hmoD] at hsv
  have ht2 : t2 = r.1 := (congrArg Prod.fst hpair)
  have hoff : off = 2 ^ a / (1 <<< (a - bp)) * (r.2 &&& ((1 <<< (a - bp)) - 1)) :=
    (congrArg Prod.snd hpair)
  obtain ⟨hInvt, hoiff, hmem, hpw, hbase⟩ :=
    reach_master (a - mm) hmo126 (initTree (a - mm)) (Inv_initTree _ hmo126) hR
  obtain ⟨d1, d2, d3, d4, hInv2, ht2j, hloc, hocc2, hun⟩ :=
    setMarkO_char (a - mm) hmo126 (by omega) hInvt hsv
  have hdlow := depthOf_lower d1
  have hdhi := depthOf_upper r.2
  rw [deallocOp_eq hbsv hov, ht2, hoff]
  have hidx : (1 <<< (a - bp)) + 2 ^ a / (1 <<< (a - bp)) * (r.2 &&& ((1 <<< (a - bp)) - 1))
      * (1 <<< (a - bp)) / 2 ^ a = r.2 :=
    offset_roundtrip (by omega) (by rw [← d3]; exact hdlow) (by rw [← d3]; exact hdhi)
  rw [hidx, ← d3]
  obtain ⟨hu_eq, hInv3, hloc3, hocc3⟩ := unsetMark_char (a - mm) hmo126 hInv2 d1 d2 ht2j
  rw [hu_eq]
  have hjfree : t r.2 ≠ occByte (a - mm) := by
    rw [d4]
    omega
  have hpoint : ∀ k, modifyParents (upd r.1 r.2 (depthOf r.2)) r.2 (depthOf r.2)
      Op.Deallocate k = t k := by
    intro k
    by_cases hkv : 1 ≤ k ∧ k < 2 ^ ((a - mm) + 1)
    · refine inv_unique (a - mm) hmo126 _ t hInv3 hInvt ?_ k hkv.1 hkv.2
      intro k2 hk21 hk22
      rw [hocc3 k2, hocc2 k2]
      constructor
      · rintro ⟨h1 | h1, hne⟩
        · exact h1
        · exact absurd h1 hne
      · intro h1
        refine ⟨Or.inl h1, ?_⟩
        intro he
        rw [he] at h1
        exact hjfree h1
    · have hk : k = 0 ∨ 2 ^ ((a - mm) + 1) ≤ k := by
        by_cases h0 : 1 ≤ k
        · right
          by_contra hlt
          push_neg at hlt
          exact hkv ⟨h0, by omega⟩
        · left
          omega
      have hknr : k ≠ r.2 := by
        rcases hk with h0 | hbig
        · omega
        · omega
      have hg3 : ∀ m, 1 ≤ m → m ≤ depthOf r.2 → k ≠ r.2 / 2 ^ m := by
        intro m hm1 hm2 he
        have hap := anc_pos d1 hm2
        have hale : r.2 / 2 ^ m ≤ r.2 := Nat.div_le_self _ _
        rcases hk with h0 | hbig
        · omega
        · omega
      rw [hloc3 k hg3 hknr]
      refine hloc k ?_ hknr
      intro m hm1 hm2
      exact hg3 m hm1 (by omega)
  exact congrArg Except.ok (funext hpoint)

/-- C3 witness: on the fresh four-leaf tree (M = 8, arena 32), an (8, 1)
allocation followed by the deallocation of its returned offset restores the
fresh tree exactly. -/
theorem c3_witness :
    deallocOp (2 ^ 3) (2 ^ 5) exC3Alloc.1 exC3Alloc.2 8 1 = .ok (initTree 2) :=
  c3_alloc_dealloc 3 5 (by norm_num) (by norm_num) (by norm_num) Reach.init rfl

/-! ### Claim C4: allocations stay inside the user-visible arena and are
aligned -/

/-- C4: self-hosted inner allocator over an arena of 2 ^ a bytes with
minimal cell 2 ^ mm, metadata of mlenOf bytes carved from the front.  Every
successful allocate from a reachable state returns the raw chunk offset
minus the metadata length; the raw chunk [rawOff, rawOff + bs) lies beyond
the metadata bytes (mlenOf ≤ rawOff, so the returned pointer
base + mlenOf + off2 = base + rawOff is in the user-visible portion) and
inside the arena; and for any arena base aligned as the source asserts
(to min(arena, MAX_SUPPORTED_ALIGN)), the returned address is a multiple
of the requested power-of-two align. -/
theorem c4_user_range (mm a : Nat) (hmm : 3 ≤ mm) (ha2 : mm + 2 ≤ a) (ha : a ≤ 63)
    {t : Tree} {L : List Nat} (hR : Reach (a - mm) (c4Base mm a) t L)
    {size align al : Nat} (hal : align = 2 ^ al) {t2 : Tree} {off2 : Nat}
    (halloc : innerAlloc (2 ^ mm) (2 ^ a) (mlenOf mm a) true t size align
      = .ok (t2, off2)) :
    ∃ bs rawOff, buddySizeOf (2 ^ mm) size align = .ok bs
      ∧ off2 = rawOff - mlenOf mm a
      ∧ mlenOf mm a ≤ rawOff
      ∧ rawOff + bs ≤ 2 ^ a
      ∧ ∀ base, base % min (2 ^ a) MAX_SUPPORTED_ALIGN = 0
          → (base + rawOff) % align = 0 := by
  have hmo126 : a - mm ≤ 126 := by omega
  have hocc := occByte_large hmo126
  obtain ⟨hInv0, hocc0iff⟩ := c4Base_spec mm a hmm ha2 ha
  obtain ⟨bs, o, r, hbsv, hov, hsv, hpair⟩ := innerAlloc_ok_inv halloc
  obtain ⟨bp, hbp, hbpmm, hbp62, halbs, hal4096⟩ := buddySizeOf_pow hmm (by omega) hbsv
  subst hbp
  obtain ⟨hbpa, hoo⟩ := orderOf_pow_ok (by omega) (by omega) hov
  subst hoo
  have hmoD : orderOfD (2 ^ mm) (2 ^ a) = a - mm :=
    orderOfD_pow2 (by omega) (by omega) (by omega)
  rw [hmoD] at hsv
  obtain ⟨hInvt, hoiff, hmem, hpw, hbase⟩ :=
    reach_master (a - mm) hmo126 (c4Base mm a) hInv0 hR
  obtain ⟨d1, d2, d3, d4, hInv2, ht2j, hloc, hocc2, hun⟩ :=
    setMarkO_char (a - mm) hmo126 (by omega) hInvt hsv
  have hoff2 : off2 = 2 ^ a / (1 <<< (a - bp)) * (r.2 &&& ((1 <<< (a - bp)) - 1))
      - mlenOf mm a := by
    have h := congrArg Prod.snd hpair
    rw [if_pos rfl] at h
    exact h
  have hrawOff : 2 ^ a / (1 <<< (a - bp)) * (r.2 &&& ((1 <<< (a - bp)) - 1))
      = nodeOffset (2 ^ a) r.2 := by
    rw [nodeOffset, d3]
  have hj01 : (1 : Nat) ≤ 2 ^ (a - max ((a - mm) + 1) mm) := Nat.one_le_two_pow
  have hdj0 : depthOf (2 ^ (a - max ((a - mm) + 1) mm)) = a - max ((a - mm) + 1) mm :=
    depthOf_pow _
  have hj0v : 2 ^ (a - max ((a - mm) + 1) mm) < 2 ^ ((a - mm) + 1) :=
    Nat.pow_lt_pow_right (by norm_num) (by omega)
  have hj0occ : t (2 ^ (a - max ((a - mm) + 1) mm)) = occByte (a - mm) :=
    (hoiff _).mpr (Or.inl ((hocc0iff _).mpr rfl))
  obtain ⟨hu1, hu2⟩ := hun _ hj01 hj0v hj0occ
  have hne : r.2 ≠ 2 ^ (a - max ((a - mm) + 1) mm) := by
    intro he
    rw [he] at d4
    omega
  have hurel : unrel (2 ^ (a - max ((a - mm) + 1) mm)) r.2 := by
    refine ⟨fun m => ?_, fun m => ?_⟩
    · cases m with
      | zero => simpa using fun he => hne he.symm
      | succ n => exact hu2 (n + 1) (by omega)
    · cases m with
      | zero => simpa using hne
      | succ n => exact hu1 (n + 1) (by omega)
  have hdr : depthOf r.2 ≤ a := by omega
  have hdisj := unrel_disjoint hj01 d1 (by omega) hdr hurel
  obtain ⟨hoj0, hlj0⟩ := nodeOffset_eq hj01 (show depthOf (2 ^ (a - max ((a - mm) + 1) mm)) ≤ a by omega)
  rw [hdj0, Nat.sub_self, Nat.mul_zero] at hoj0
  have hlen0 : nodeLen (2 ^ a) (2 ^ (a - max ((a - mm) + 1) mm)) = mlenOf mm a := by
    rw [hlj0, hdj0, mlenOf_eq mm a (by omega)]
    congr 1
    omega
  have hbs2 : nodeLen (2 ^ a) r.2 = 2 ^ bp := by
    rw [nodeLen, d3, Nat.one_shiftLeft, Nat.pow_div (by omega) (by norm_num)]
    congr 1
    omega
  have hbspos : (1 : Nat) ≤ 2 ^ bp := Nat.one_le_two_pow
  have hmlraw : mlenOf mm a ≤ nodeOffset (2 ^ a) r.2 := by
    rcases hdisj with hc | hc
    · rw [hoj0, hlen0] at hc
      omega
    · rw [hoj0, hbs2] at hc
      omega
  have harena : nodeOffset (2 ^ a) r.2 + 2 ^ bp ≤ 2 ^ a := by
    have h := node_in_arena d1 hdr
    rw [hbs2] at h
    exact h
  refine ⟨2 ^ bp, nodeOffset (2 ^ a) r.2, hbsv, ?_, hmlraw, harena, ?_⟩
  · rw [hoff2, hrawOff]
  · intro base hbase
    have halbp : al ≤ bp := by
      rw [hal] at halbs
      exact (Nat.pow_le_pow_iff_right (by norm_num)).mp halbs
    have hal12 : al ≤ 12 := by
      rw [hal] at hal4096
      have h12 : (MAX_SUPPORTED_ALIGN : Nat) = 2 ^ 12 := by decide
      rw [h12] at hal4096
      exact (Nat.pow_le_pow_iff_right (by norm_num)).mp hal4096
    obtain ⟨hor, -⟩ := nodeOffset_eq d1 hdr
    have hor2 : nodeOffset (2 ^ a) r.2 = 2 ^ bp * (r.2 - 2 ^ depthOf r.2) := by
      rw [hor]
      congr 2
      omega
    have hdvd_raw : (2 : Nat) ^ al ∣ nodeOffset (2 ^ a) r.2 := by
      rw [hor2]
      exact Dvd.dvd.mul_right (pow_dvd_pow 2 halbp) _
    have hminp : min (2 ^ a) MAX_SUPPORTED_ALIGN = 2 ^ min a 12 := by
      have h12 : (MAX_SUPPORTED_ALIGN : Nat) = 2 ^ 12 := by decide
      rw [h12, min_pow2]
    have hdvd_base : (2 : Nat) ^ al ∣ base := by
      refine dvd_trans (pow_dvd_pow 2 (show al ≤ min a 12 by omega)) ?_
      rw [← hminp]
      exact Nat.dvd_of_mod_eq_zero hbase
    obtain ⟨c, hc⟩ := Dvd.dvd.add hdvd_base hdvd_raw
    rw [hal, hc, Nat.mul_mod_right]

/-- C4 witness: the first client allocation (8 bytes, align 1) on the
self-hosted base state with M = 8, arena 32, metadata length 8. -/
theorem c4_witness :
    ∃ bs rawOff, buddySizeOf (2 ^ 3) 8 1 = .ok bs
      ∧ exC4.2 = rawOff - mlenOf 3 5
      ∧ mlenOf 3 5 ≤ rawOff
      ∧ rawOff + bs ≤ 2 ^ 5
      ∧ ∀ base, base % min (2 ^ 5) MAX_SUPPORTED_ALIGN = 0
          → (base + rawOff) % 1 = 0 :=
  c4_user_range 3 5 (by norm_num) (by norm_num) (by norm_num) Reach.init
    (show (1 : Nat) = 2 ^ 0 by norm_num) rfl

end BuddyAlloc
